import Mathlib

/-!
Verification of the mayday ingestion-to-retrieval pipeline.

Shallow embedding of the core pipeline of the `mayday` repository:

* `src/database/models.py` — the `Document`, `Chunk`, `CompanyResource` records;
* `src/utils/ingestion/s3_to_db.py` — S3 fetch, PDF extraction to documents and
  chunks, the chunk backfill, and the batch resource loop;
* `src/utils/ingestion/db_to_vector.py` — the vector indexer;
* `src/utils/ingestion/query_vector.py` — the retriever;
* `src/utils/ingestion/chunk_contextualiser.py` — the contextualiser;
* `src/services/chat.py` — the response assembler.

External collaborators (S3, the PDF loader, the text splitter, the embedding
model, the vector store, the LLM) are passed as function parameters.  Python
exceptions raised by a collaborator are modelled with `Except`/`Option`
results; ids generated by `uuid.uuid4()` are modelled by a monotone `Nat`
counter threaded through the functions; byte strings are `List Nat`.
The relational store is an in-memory `DB` record; a SQLAlchemy `commit` of
pending inserts/updates is the corresponding pure state update, and a session
that is closed without committing discards its pending updates.
-/

set_option maxHeartbeats 1000000

namespace Mayday

/-! ## Data model (src/database/models.py) -/

/-- One page of extracted text (table `documents`).  `resource_id`,
`page_number` and `file_path` are nullable in the schema. -/
structure Document where
  id : Nat
  company_id : Nat
  resource_id : Option Nat
  text : String
  page_number : Option Nat
  file_path : Option String
  deriving Repr, DecidableEq

/-- A bounded slice of a document's text (table `chunks`); `context` is
nullable and filled in later by the contextualiser. -/
structure Chunk where
  id : Nat
  document_id : Nat
  company_id : Nat
  text : String
  context : Option String
  deriving Repr, DecidableEq

/-- A registered source file (table `company_resources`). -/
structure CompanyResource where
  id : Nat
  company_id : Nat
  resource_location : String
  is_ingested : Bool
  deriving Repr, DecidableEq

/-- The relational store as seen by the pipeline. -/
structure DB where
  resources : List CompanyResource
  documents : List Document
  chunks : List Chunk
  deriving Repr, DecidableEq

/-- Raw file content, as a byte string. -/
abbrev Bytes := List Nat

/-! ## Observers on the store -/

/-- Row lookup by primary key in `company_resources`. -/
def lookupRes (db : DB) (rid : Nat) : Option CompanyResource :=
  db.resources.find? (fun r => r.id == rid)

/-- First row with the given primary key in `documents`. -/
def lookupDoc (db : DB) (did : Nat) : Option Document :=
  db.documents.find? (fun d => d.id == did)

/-- First row with the given primary key in `chunks`. -/
def findChunk (l : List Chunk) (cid : Nat) : Option Chunk :=
  l.find? (fun c => c.id == cid)

/-- Row lookup by primary key in `chunks`. -/
def lookupChunk (db : DB) (cid : Nat) : Option Chunk :=
  findChunk db.chunks cid

/-- The documents extracted from one resource
(`db.query(Document).filter(Document.resource_id == rid)`). -/
def docsOfRes (db : DB) (rid : Nat) : List Document :=
  db.documents.filter (fun d => d.resource_id == some rid)

/-- The chunks of one document
(`db.query(Chunk).filter(Chunk.document_id == did)`). -/
def chunksOfDoc (db : DB) (did : Nat) : List Chunk :=
  db.chunks.filter (fun c => c.document_id == did)

/-- `db.query(Chunk).filter(Chunk.document_id == did).count()`. -/
def chunkCount (db : DB) (did : Nat) : Nat :=
  (chunksOfDoc db did).length

/-- The chunks that belong to a resource through its documents. -/
def resourceChunks (db : DB) (rid : Nat) : List Chunk :=
  db.chunks.filter (fun c => (docsOfRes db rid).any (fun d => d.id == c.document_id))

/-- All ids used as a document primary key or referenced by a chunk are below
`fresh`: the id counter never re-issues an id already present in the store. -/
def DB.freshOk (db : DB) (fresh : Nat) : Prop :=
  (∀ d ∈ db.documents, d.id < fresh) ∧ (∀ c ∈ db.chunks, c.document_id < fresh)

/-! ## SourceLocator (`get_s3_file_content`, src/utils/ingestion/s3_to_db.py) -/

/-- `b"%PDF-"`. -/
def pdfMagic : Bytes := [0x25, 0x50, 0x44, 0x46, 0x2D]

/-- `b"Bud1"` — the macOS `.DS_Store` signature. -/
def bud1Sig : Bytes := [0x42, 0x75, 0x64, 0x31]

/-- `b"\x00\x00\x00\x01Bud1"`. -/
def bud1LongSig : Bytes := [0x00, 0x00, 0x00, 0x01, 0x42, 0x75, 0x64, 0x31]

/-- `get_s3_file_content`: fetch a file from S3 into memory (`s3get` is the
boto3 `get_object` call; any exception it raises is caught and turned into
`None`).  Content carrying a known non-PDF signature is rejected with `None`;
other content is returned even when it does not start with `%PDF-`
("Attempting to process anyway"). -/
def get_s3_file_content (s3get : String → Except String Bytes) (s3_url : String) :
    Option Bytes :=
  match s3get s3_url with
  | .error _ => none
  | .ok file_content =>
    if !(pdfMagic.isPrefixOf file_content) then
      if bud1Sig.isPrefixOf file_content || bud1LongSig.isPrefixOf file_content then
        none
      else
        some file_content
    else
      some file_content

/-! ## IngestionPipeline (`extract_pdf_content_to_document_db`,
`process_resources_from_db`, src/utils/ingestion/s3_to_db.py) -/

/-- The chunk records created for one document from the splitter output, with
ids drawn from the counter (loop body `for chunk_text in text_chunks`). -/
def mkChunks (texts : List String) (docId companyId : Nat) (fresh : Nat) :
    List Chunk × Nat :=
  match texts with
  | [] => ([], fresh)
  | t :: ts =>
    let rest := mkChunks ts docId companyId (fresh + 1)
    ({ id := fresh, document_id := docId, company_id := companyId,
       text := t, context := none } :: rest.1, rest.2)

/-- The per-page loop of `extract_pdf_content_to_document_db`: one `Document`
per page (1-based `page_number`, `file_path` the S3 URL), then the chunks of
that page, each batch committed page by page.  Returns the created documents,
the created chunks, and the advanced id counter. -/
def savePages (split : String → List String) (s3_url : String)
    (companyId resourceId : Nat) :
    List String → Nat → Nat → List Document × List Chunk × Nat
  | [], _, fresh => ([], [], fresh)
  | page :: rest, i, fresh =>
    let doc : Document :=
      { id := fresh, company_id := companyId, resource_id := some resourceId,
        text := page, page_number := some (i + 1), file_path := some s3_url }
    let chs := mkChunks (split page) doc.id companyId (fresh + 1)
    let tail := savePages split s3_url companyId resourceId rest (i + 1) chs.2
    (doc :: tail.1, chs.1 ++ tail.2.1, tail.2.2)

/-- `extract_pdf_content_to_document_db`: early return (no records) when the
content is not `%PDF-` but carries a known macOS signature; otherwise the
bytes go to the PDF loader (`PyPDFLoader.load`, which may raise — `.error`),
and each page is persisted as a document plus its chunks. -/
def extract_pdf_content_to_document_db
    (loader : Bytes → Except String (List String))
    (split : String → List String)
    (pdf_content : Bytes) (s3_url : String) (companyId resourceId : Nat)
    (db : DB) (fresh : Nat) : Except String (DB × Nat) :=
  if !(pdfMagic.isPrefixOf pdf_content) &&
      (bud1LongSig.isPrefixOf pdf_content || bud1Sig.isPrefixOf pdf_content) then
    .ok (db, fresh)
  else
    match loader pdf_content with
    | .error e => .error e
    | .ok pages =>
      let saved := savePages split s3_url companyId resourceId pages 0 fresh
      .ok ({ db with documents := db.documents ++ saved.1,
                     chunks := db.chunks ++ saved.2.1 }, saved.2.2)

/-- `resource.is_ingested = True; db.commit()` — flip the flag of the row. -/
def markIngested (db : DB) (rid : Nat) : DB :=
  { db with resources :=
      db.resources.map (fun r => if r.id == rid then { r with is_ingested := true } else r) }

/-- The body of the `for resource in resources` loop of
`process_resources_from_db`: fetch (failure → skip), Python truthiness of the
bytes (`if file_content:` — empty content is falsy), extract (an exception is
caught, the outer session rolled back, the flag left untouched), then mark the
resource ingested and commit. -/
def process_one (s3get : String → Except String Bytes)
    (loader : Bytes → Except String (List String))
    (split : String → List String)
    (r : CompanyResource) (db : DB) (fresh : Nat) : DB × Nat :=
  match get_s3_file_content s3get r.resource_location with
  | none => (db, fresh)
  | some file_content =>
    if file_content.isEmpty then (db, fresh)
    else
      match extract_pdf_content_to_document_db loader split file_content
              r.resource_location r.company_id r.id db fresh with
      | .error _ => (db, fresh)
      | .ok st => (markIngested st.1 r.id, st.2)

/-- The loop of `process_resources_from_db` over the snapshot of resources. -/
def processList (s3get : String → Except String Bytes)
    (loader : Bytes → Except String (List String))
    (split : String → List String) :
    List CompanyResource → DB → Nat → DB × Nat
  | [], db, fresh => (db, fresh)
  | r :: rest, db, fresh =>
    let st := process_one s3get loader split r db fresh
    processList s3get loader split rest st.1 st.2

/-- `process_resources_from_db`: query all resources with
`is_ingested == False` and process each in turn. -/
def process_resources_from_db (s3get : String → Except String Bytes)
    (loader : Bytes → Except String (List String))
    (split : String → List String) (db : DB) (fresh : Nat) : DB × Nat :=
  processList s3get loader split
    (db.resources.filter (fun r => r.is_ingested == false)) db fresh

/-- The fate of a single resource in `process_one`, as decided by the external
collaborators alone: `none` when the fetch fails or is rejected, the content
is empty, or the PDF loader raises; `some pages` when the resource reaches the
page-persisting loop with the loaded pages (the unreachable early-return for a
macOS signature that slipped past the fetch counts as success with no pages,
exactly as in the source). -/
def ingestionOutcome (s3get : String → Except String Bytes)
    (loader : Bytes → Except String (List String))
    (r : CompanyResource) : Option (List String) :=
  match get_s3_file_content s3get r.resource_location with
  | none => none
  | some file_content =>
    if file_content.isEmpty then none
    else if !(pdfMagic.isPrefixOf file_content) &&
        (bud1LongSig.isPrefixOf file_content || bud1Sig.isPrefixOf file_content) then
      some []
    else
      match loader file_content with
      | .error _ => none
      | .ok pages => some pages

/-! ## Chunk backfill (`process_documents_to_chunks`,
src/utils/ingestion/s3_to_db.py and src/utils/ingestion/document_to_db.py —
the two copies have identical logic) -/

/-- The `hasattr`/`is None` default patching of a document's `page_number`
and `file_path`. -/
def patchFields (d : Document) : Document :=
  { d with
    page_number := match d.page_number with | none => some 0 | some n => some n,
    file_path := match d.file_path with | none => some "unknown_path" | some s => some s }

/-- Commit the patched defaults of the document row with the given id. -/
def patchDoc (db : DB) (did : Nat) : DB :=
  { db with documents :=
      db.documents.map (fun d => if d.id == did then patchFields d else d) }

/-- The `for document in documents` loop of `process_documents_to_chunks`:
a document with zero chunks is patched and given the chunks of its split
text; a document that already has chunks is skipped. -/
def backfillGo (split : String → List String) :
    List Document → DB → Nat → DB × Nat
  | [], db, fresh => (db, fresh)
  | d :: rest, db, fresh =>
    if chunkCount db d.id == 0 then
      backfillGo split rest
        { patchDoc db d.id with
            chunks := (patchDoc db d.id).chunks ++
              (mkChunks (split d.text) d.id d.company_id fresh).1 }
        (mkChunks (split d.text) d.id d.company_id fresh).2
    else
      backfillGo split rest db fresh

/-- `process_documents_to_chunks`: create chunks for every document that does
not have any yet. -/
def process_documents_to_chunks (split : String → List String)
    (db : DB) (fresh : Nat) : DB × Nat :=
  backfillGo split db.documents db fresh

/-! ## VectorIndexer (`ingest_chunks_to_pinecone`,
src/utils/ingestion/db_to_vector.py) -/

/-- SQL `LIKE '%pat%'` on a nullable column: a NULL never matches; otherwise
substring containment (wildcard characters inside the operands are not
modelled — none of the verified properties depends on them). -/
def likeMatch (pat : String) (fp : Option String) : Bool :=
  match fp with
  | none => false
  | some s => decide (pat.data <:+: s.data)

/-- `str(x)` applied to a nullable text column: Python renders `None`. -/
def pyStrOfContext : Option String → String
  | none => "None"
  | some s => s

/-- A record upserted to Pinecone: the langchain document's `page_content`
plus its metadata fields. -/
structure PineconeRecord where
  page_content : String
  chunk_id : Nat
  document_id : Nat
  company_id : Nat
  file_path : String
  page_number : Nat
  deriving Repr, DecidableEq

/-- The ids of the documents whose `file_path` matches the exclusion filter
(`Document.file_path.like(f"%{exclude_path}%")`). -/
def excludedDocIds (db : DB) (exclude_path : String) : List Nat :=
  (db.documents.filter (fun d => likeMatch exclude_path d.file_path)).map (fun d => d.id)

/-- `Chunk.document_id.notin_(excluded_doc_ids) if excluded_doc_ids else True`:
with no excluded documents the filter degenerates to `True`. -/
def chunksSelected (db : DB) (exclude_path : String) : List Chunk :=
  let excluded := excludedDocIds db exclude_path
  if excluded.isEmpty then db.chunks
  else db.chunks.filter (fun c => !(excluded.contains c.document_id))

/-- The langchain-document construction of `ingest_chunks_to_pinecone` for
one chunk: look up its parent document (a missing parent is a warning and the
chunk is skipped — `none`), build the composite payload
`f"Context: {chunk.context}\n\nContent: {chunk.text}"` and the metadata
(`file_path or ""`, `page_number or 0`). -/
def recordOf (db : DB) (c : Chunk) : Option PineconeRecord :=
  match db.documents.find? (fun d => d.id == c.document_id) with
  | none => none
  | some document => some
      { page_content := "Context: " ++ pyStrOfContext c.context ++
          "\n\nContent: " ++ c.text,
        chunk_id := c.id,
        document_id := document.id,
        company_id := document.company_id,
        file_path := document.file_path.getD "",
        page_number := document.page_number.getD 0 }

/-- The `for i, chunk in enumerate(chunks)` loop of
`ingest_chunks_to_pinecone`: the langchain documents prepared for Pinecone,
in chunk order. -/
def ingest_chunks_to_pinecone (db : DB) (exclude_path : String) :
    List PineconeRecord :=
  (chunksSelected db exclude_path).filterMap (recordOf db)

/-- Slice a list into consecutive batches of `size + 1` elements (the `+ 1`
keeps the batch size positive, which the source guarantees with its literal
`batch_size = 100`). -/
def toBatches (size : Nat) : List α → List (List α)
  | [] => []
  | x :: xs => (x :: xs.take size) :: toBatches size (xs.drop size)
  termination_by l => l.length
  decreasing_by simp only [List.length_cons, List.length_drop]; omega

/-- The `for i in range(0, len(langchain_docs), batch_size)` loop: the
successive arguments of `PineconeVectorStore.from_documents`, i.e. the upsert
calls, in batches of 100. -/
def pinecone_upsert_batches (db : DB) (exclude_path : String) :
    List (List PineconeRecord) :=
  toBatches 99 (ingest_chunks_to_pinecone db exclude_path)

/-! ## Retriever (`query_vector_store`, src/utils/ingestion/query_vector.py) -/

/-- Failures of the retrieval path. -/
inductive QueryError where
  | invalidArgument
  | capabilityError
  deriving Repr, DecidableEq

/-- A document returned by `similarity_search`: stored payload plus a
metadata dictionary whose keys may be absent (`dict.get` yields `None`). -/
structure RetrievedDoc where
  page_content : String
  chunk_id : Option Nat
  document_id : Option Nat
  company_id : Option Nat
  file_path : Option String
  page_number : Option Nat
  deriving Repr, DecidableEq

/-- The index-name resolution of `query_vector_store`: `PINECONE_INDEX_NAME`
with fallback to `INDEX_NAME` when unset or empty (Python truthiness). -/
def resolveIndexName (env : String → Option String) : Option String :=
  match env "PINECONE_INDEX_NAME" with
  | none => env "INDEX_NAME"
  | some s => if s = "" then env "INDEX_NAME" else some s

/-- `query_vector_store`: embed the query and search the index.  The body
passes `top_k` straight to `similarity_search` (the `search` capability,
which may raise — `.error`); there is no validation of `top_k` anywhere. -/
def query_vector_store (env : String → Option String)
    (search : Option String → String → Int → Except QueryError (List RetrievedDoc))
    (query_text : String) (top_k : Int) : Except QueryError (List RetrievedDoc) :=
  search (resolveIndexName env) query_text top_k

/-! ## Contextualizer (`ChunkContextualiser`,
src/utils/ingestion/chunk_contextualiser.py) -/

/-- `chunk.context = context` on the row with the given id, committed. -/
def updCtx (cid : Nat) (ctx : String) (l : List Chunk) : List Chunk :=
  l.map (fun c => if c.id == cid then { c with context := some ctx } else c)

/-- `setChunkContext db cid ctx` is `updCtx` lifted to the store. -/
def setChunkContext (db : DB) (cid : Nat) (ctx : String) : DB :=
  { db with chunks := updCtx cid ctx db.chunks }

/-- The loop of `process_all_chunks_for_document`: for each chunk of the
snapshot, invoke the LLM (`llm chunkText documentText`, may raise), record
the result, update the chunk's `context` and commit immediately.  An LLM
exception propagates; the updates committed so far survive in the store. -/
def paGo (llm : String → String → Except Unit String) (docText : String) :
    List Chunk → DB → List (Nat × String) → DB × Except Unit (List (Nat × String))
  | [], db, results => (db, .ok results)
  | c :: rest, db, results =>
    match llm c.text docText with
    | .error _ => (db, .error ())
    | .ok context =>
      paGo llm docText rest (setChunkContext db c.id context)
        (results ++ [(c.id, context)])

/-- `ChunkContextualiser.process_all_chunks_for_document`: missing document →
empty result; otherwise contextualise each chunk of the document, committing
after every single update. -/
def process_all_chunks_for_document (llm : String → String → Except Unit String)
    (db : DB) (document_id : Nat) : DB × Except Unit (List (Nat × String)) :=
  match lookupDoc db document_id with
  | none => (db, .ok [])
  | some document => paGo llm document.text (chunksOfDoc db document_id) db []

/-- The loop of `update_chunk_contexts_in_db`: the context assignments are
only buffered in the session (`chunk.context = context` with no commit);
an LLM exception aborts the whole loop. -/
def uGo (llm : String → String → Except Unit String) (docText : String) :
    List Chunk → List (Nat × String) → Except Unit (List (Nat × String))
  | [], acc => .ok acc
  | c :: rest, acc =>
    match llm c.text docText with
    | .error _ => .error ()
    | .ok context => uGo llm docText rest (acc ++ [(c.id, context)])

/-- Apply a list of buffered context assignments to the store, in order
(the single `db.commit()` at the end of `update_chunk_contexts_in_db`). -/
def applyContextUpdates (db : DB) : List (Nat × String) → DB
  | [] => db
  | (cid, ctx) :: rest => applyContextUpdates (setChunkContext db cid ctx) rest

/-- `ChunkContextualiser.update_chunk_contexts_in_db`: missing document → 0;
otherwise contextualise every chunk of the document and commit once at the
end.  On an LLM exception the session is closed without committing, so none
of the buffered updates reaches the store. -/
def update_chunk_contexts_in_db (llm : String → String → Except Unit String)
    (db : DB) (document_id : Nat) : DB × Except Unit Nat :=
  match lookupDoc db document_id with
  | none => (db, .ok 0)
  | some document =>
    match uGo llm document.text (chunksOfDoc db document_id) [] with
    | .error _ => (db, .error ())
    | .ok updates => (applyContextUpdates db updates, .ok updates.length)

/-! ## ResponseAssembler (`ChatService.generate_response`,
src/services/chat.py) -/

/-- A conversation turn as received by the chat service. -/
structure ChatMsg where
  role : String
  content : String
  deriving Repr, DecidableEq

/-- A langchain message (`SystemMessage` / `HumanMessage` / `AIMessage`). -/
inductive LMessage where
  | system (content : String)
  | human (content : String)
  | ai (content : String)
  deriving Repr, DecidableEq

/-- One entry of the returned `metadata` list: the five keys are always
present, each holding whatever `doc.metadata.get(key)` produced. -/
structure Citation where
  chunk_id : Option Nat
  document_id : Option Nat
  company_id : Option Nat
  file_path : Option String
  page_number : Option Nat
  deriving Repr, DecidableEq

/-- The backwards scan `for msg in reversed(messages)` for the latest
user-authored message. -/
def latestUserMessage (messages : List ChatMsg) : Option String :=
  (messages.reverse.find? (fun m => m.role == "user")).map (fun m => m.content)

/-- The metadata dictionary extracted from one retrieved document. -/
def citationOf (d : RetrievedDoc) : Citation :=
  { chunk_id := d.chunk_id, document_id := d.document_id,
    company_id := d.company_id, file_path := d.file_path,
    page_number := d.page_number }

/-- The grounding block `"Context from knowledge base:\n\n"` followed by each
passage wrapped in `---` delimiters. -/
def contextBlock (results : List RetrievedDoc) : String :=
  "Context from knowledge base:\n\n" ++
    String.join (results.map (fun d => "---\n" ++ d.page_content ++ "\n---\n"))

/-- The `for msg in messages` conversion to langchain messages; roles other
than `user`/`assistant` are dropped. -/
def convertMessages (messages : List ChatMsg) : List LMessage :=
  messages.filterMap (fun m =>
    if m.role == "user" then some (LMessage.human m.content)
    else if m.role == "assistant" then some (LMessage.ai m.content)
    else none)

/-- `ChatService.generate_response`: find the latest user message; if there is
one, retrieve `top_k=3` passages for it through `query_vector_store` (an
exception propagates), build the grounding system message and the metadata
list when the result list is non-empty; assemble system prompt, optional
grounding block and converted history; invoke the chat model once; return its
text and the metadata list. -/
def generate_response (env : String → Option String)
    (search : Option String → String → Int → Except QueryError (List RetrievedDoc))
    (chat : List LMessage → String) (system_prompt : String)
    (messages : List ChatMsg) : Except QueryError (String × List Citation) :=
  match latestUserMessage messages with
  | none =>
    .ok (chat ([LMessage.system system_prompt] ++ convertMessages messages), [])
  | some q =>
    match query_vector_store env search q 3 with
    | .error e => .error e
    | .ok vector_results =>
      if vector_results.isEmpty then
        .ok (chat ([LMessage.system system_prompt] ++ convertMessages messages), [])
      else
        .ok (chat ([LMessage.system system_prompt] ++
               [LMessage.system (contextBlock vector_results)] ++
               convertMessages messages),
             vector_results.map citationOf)

/-- The citation list carried by a `generate_response` result. -/
def citationsOf (e : Except QueryError (String × List Citation)) : List Citation :=
  match e with
  | .error _ => []
  | .ok st => st.2

/-! ## Concrete instances used by counterexamples and witnesses -/

/-- All pages of a loaded resource, with their chunks, are present in the
store: one document per page with 1-based page number, the page text, the S3
URL as file path, and exactly the splitter output as its chunk texts. -/
def pagesPersisted (split : String → List String) (db : DB)
    (r : CompanyResource) (pages : List String) : Prop :=
  ∀ j (hj : j < pages.length),
    ∃ d ∈ db.documents,
      d.resource_id = some r.id ∧ d.page_number = some (j + 1) ∧
      d.text = pages.get ⟨j, hj⟩ ∧ d.file_path = some r.resource_location ∧
      (db.chunks.filter (fun c => c.document_id == d.id)).map (fun c => c.text) =
        split (pages.get ⟨j, hj⟩)

def c1S3 : String → Except String Bytes := fun _ => .ok pdfMagic

def c1Loader : Bytes → Except String (List String) := fun _ => .ok ["page one"]

def c1Split : String → List String := fun t => [t]

def c1Res : CompanyResource :=
  { id := 1, company_id := 2, resource_location := "s3://u", is_ingested := false }

def c1DB : DB := { resources := [c1Res], documents := [], chunks := [] }

def c2S3 : String → Except String Bytes := fun _ => .ok (0x41 :: pdfMagic)

def c2Loader : Bytes → Except String (List String) := fun _ => .ok ["hello"]

def c2Split : String → List String := fun t => [t]

def c2DB : DB :=
  { resources := [{ id := 1, company_id := 2, resource_location := "u",
                    is_ingested := false }],
    documents := [], chunks := [] }

def c2wS3 : String → Except String Bytes := fun _ => .ok [0x41]

def c2wLoader : Bytes → Except String (List String) :=
  fun _ => .error "EOF marker not found"

def c2wRes : CompanyResource :=
  { id := 1, company_id := 2, resource_location := "u", is_ingested := false }

def c2wDB : DB := { resources := [c2wRes], documents := [], chunks := [] }

def c3Res : CompanyResource :=
  { id := 1, company_id := 2, resource_location := "s3://done", is_ingested := true }

def c3DB : DB :=
  { resources := [c3Res,
      { id := 2, company_id := 2, resource_location := "s3://new", is_ingested := false }],
    documents := [{ id := 5, company_id := 2, resource_id := some 1, text := "T",
                    page_number := some 1, file_path := some "s3://done" }],
    chunks := [{ id := 6, document_id := 5, company_id := 2, text := "T",
                 context := none }] }

def c9S3 : String → Except String Bytes :=
  fun url => if url = "s3://bad" then .error "boom" else .ok pdfMagic

def c9DB : DB :=
  { resources := [
      { id := 1, company_id := 2, resource_location := "s3://bad", is_ingested := false },
      { id := 2, company_id := 2, resource_location := "s3://good", is_ingested := false }],
    documents := [], chunks := [] }

/-- Every row with the given id is a fixed point of the default patching. -/
def rowFixed (db : DB) (ρ : Nat) : Prop :=
  ∀ x ∈ db.documents, x.id = ρ → patchFields x = x

def c10Split : String → List String := fun t => [t]

def c10DB : DB :=
  { resources := [],
    documents := [
      { id := 1, company_id := 2, resource_id := none, text := "has chunks",
        page_number := some 1, file_path := some "p" },
      { id := 3, company_id := 2, resource_id := none, text := "backfill me",
        page_number := none, file_path := none }],
    chunks := [{ id := 7, document_id := 1, company_id := 2, text := "has chunks",
                 context := none }] }

/-- The payload as the spec words it (refinement target, not from the
source): `context` + blank line + `text`, `context` contributing the empty
string when absent. -/
def specPayload (c : Chunk) : String :=
  c.context.getD "" ++ "\n\n" ++ c.text

def c4Chunk : Chunk :=
  { id := 7, document_id := 1, company_id := 2, text := "t", context := none }

def c4DB : DB :=
  { resources := [],
    documents := [{ id := 1, company_id := 2, resource_id := none, text := "T",
                    page_number := some 1, file_path := some "/a/b.pdf" }],
    chunks := [c4Chunk] }

def c4wChunk : Chunk :=
  { id := 7, document_id := 1, company_id := 2, text := "t", context := none }

def c4wDoc : Document :=
  { id := 1, company_id := 2, resource_id := none, text := "T",
    page_number := some 1, file_path := some "/a/b.pdf" }

def c4wDB : DB := { resources := [], documents := [c4wDoc], chunks := [c4wChunk] }

def c5Doc : Document :=
  { id := 1, company_id := 2, resource_id := none, text := "T",
    page_number := some 1, file_path := some "/a/b.pdf" }

def c5Chunk : Chunk :=
  { id := 7, document_id := 1, company_id := 2, text := "t", context := some "ctx" }

def c5DB : DB :=
  { resources := [],
    documents := [c5Doc,
      { id := 2, company_id := 2, resource_id := none, text := "U",
        page_number := some 1, file_path := some "/keep/c.pdf" }],
    chunks := [c5Chunk,
      { id := 8, document_id := 2, company_id := 2, text := "u", context := none }] }

def c6Env : String → Option String := fun _ => some "idx"

def c6Search : Option String → String → Int → Except QueryError (List RetrievedDoc) :=
  fun _ _ _ => .ok []

def c7Doc : Document :=
  { id := 1, company_id := 2, resource_id := none, text := "D",
    page_number := some 1, file_path := some "p" }

def c7DB : DB :=
  { resources := [], documents := [c7Doc],
    chunks := [
      { id := 10, document_id := 1, company_id := 2, text := "a", context := none },
      { id := 11, document_id := 1, company_id := 2, text := "b", context := none }] }

def c7Llm : String → String → Except Unit String :=
  fun chunkText _ => if chunkText = "a" then .ok "ctxA" else .error ()

def c8Env : String → Option String := fun _ => some "idx"

def c8PassageNoPage : RetrievedDoc :=
  { page_content := "p1", chunk_id := some 1, document_id := some 2,
    company_id := some 3, file_path := some "f", page_number := none }

def c8SearchNoPage : Option String → String → Int → Except QueryError (List RetrievedDoc) :=
  fun _ _ _ => .ok [c8PassageNoPage]

def c8Chat : List LMessage → String := fun _ => "the answer"

def c8Passage2 : RetrievedDoc :=
  { page_content := "p2", chunk_id := some 4, document_id := some 5,
    company_id := some 6, file_path := some "g", page_number := some 9 }

def c8Search2 : Option String → String → Int → Except QueryError (List RetrievedDoc) :=
  fun _ _ _ => .ok [c8PassageNoPage, c8Passage2]

/-! ## Infrastructure lemmas -/

/-- Concatenating the upsert batches gives back the record list. -/
theorem toBatches_join (size : Nat) : (l : List α) → (toBatches size l).flatten = l
  | [] => by rw [toBatches]; rfl
  | x :: xs => by
    rw [toBatches]
    show (x :: xs.take size) ++ (toBatches size (xs.drop size)).flatten = x :: xs
    rw [toBatches_join size (xs.drop size)]
    simp [List.take_append_drop]
  termination_by l => l.length
  decreasing_by simp only [List.length_cons, List.length_drop]; omega

/-- Membership in some batch is membership in the record list. -/
theorem mem_toBatches_iff (size : Nat) (l : List α) (a : α) :
    (∃ b ∈ toBatches size l, a ∈ b) ↔ a ∈ l := by
  constructor
  · rintro ⟨b, hb, hab⟩
    have : a ∈ (toBatches size l).flatten := List.mem_flatten.mpr ⟨b, hb, hab⟩
    rwa [toBatches_join] at this
  · intro ha
    have : a ∈ (toBatches size l).flatten := by rwa [toBatches_join]
    exact List.mem_flatten.mp this

theorem mkChunks_counter (texts : List String) (docId companyId : Nat) :
    ∀ fresh, (mkChunks texts docId companyId fresh).2 = fresh + texts.length := by
  induction texts with
  | nil => intro fresh; simp [mkChunks]
  | cons t ts ih => intro fresh; simp [mkChunks, ih]; omega

theorem mkChunks_texts (texts : List String) (docId companyId : Nat) :
    ∀ fresh, ((mkChunks texts docId companyId fresh).1).map (fun c => c.text) = texts := by
  induction texts with
  | nil => intro fresh; simp [mkChunks]
  | cons t ts ih => intro fresh; simp [mkChunks, ih]

theorem mkChunks_document_id (texts : List String) (docId companyId : Nat) :
    ∀ fresh, ∀ c ∈ (mkChunks texts docId companyId fresh).1, c.document_id = docId := by
  induction texts with
  | nil => intro fresh c hc; simp [mkChunks] at hc
  | cons t ts ih =>
    intro fresh c hc
    simp only [mkChunks, List.mem_cons] at hc
    rcases hc with rfl | hc
    · rfl
    · exact ih (fresh + 1) c hc

theorem savePages_counter_le (split : String → List String) (url : String)
    (cid rid : Nat) :
    ∀ (pages : List String) (i fresh : Nat),
      fresh ≤ (savePages split url cid rid pages i fresh).2.2 := by
  intro pages
  induction pages with
  | nil => intro i fresh; simp [savePages]
  | cons p ps ih =>
    intro i fresh
    simp only [savePages]
    have h1 : (mkChunks (split p) fresh cid (fresh + 1)).2 = fresh + 1 + (split p).length :=
      mkChunks_counter _ _ _ _
    have h2 := ih (i + 1) (mkChunks (split p) fresh cid (fresh + 1)).2
    omega

theorem savePages_docs (split : String → List String) (url : String)
    (cid rid : Nat) :
    ∀ (pages : List String) (i fresh : Nat),
      ∀ d ∈ (savePages split url cid rid pages i fresh).1,
        fresh ≤ d.id ∧ d.id < (savePages split url cid rid pages i fresh).2.2 ∧
        d.resource_id = some rid ∧ d.company_id = cid ∧ d.file_path = some url := by
  intro pages
  induction pages with
  | nil => intro i fresh d hd; simp [savePages] at hd
  | cons p ps ih =>
    intro i fresh d hd
    simp only [savePages, List.mem_cons] at hd
    have hcnt : (mkChunks (split p) fresh cid (fresh + 1)).2 = fresh + 1 + (split p).length :=
      mkChunks_counter _ _ _ _
    have hge := savePages_counter_le split url cid rid ps (i + 1)
      (mkChunks (split p) fresh cid (fresh + 1)).2
    rcases hd with rfl | hd
    · refine ⟨le_refl _, ?_, rfl, rfl, rfl⟩
      simp only [savePages]
      omega
    · have := ih (i + 1) (mkChunks (split p) fresh cid (fresh + 1)).2 d hd
      simp only [savePages]
      exact ⟨by omega, this.2.1, this.2.2⟩

theorem savePages_chunks (split : String → List String) (url : String)
    (cid rid : Nat) :
    ∀ (pages : List String) (i fresh : Nat),
      ∀ c ∈ (savePages split url cid rid pages i fresh).2.1,
        fresh ≤ c.document_id ∧
        c.document_id < (savePages split url cid rid pages i fresh).2.2 := by
  intro pages
  induction pages with
  | nil => intro i fresh c hc; simp [savePages] at hc
  | cons p ps ih =>
    intro i fresh c hc
    simp only [savePages, List.mem_append] at hc
    have hcnt : (mkChunks (split p) fresh cid (fresh + 1)).2 = fresh + 1 + (split p).length :=
      mkChunks_counter _ _ _ _
    have hge := savePages_counter_le split url cid rid ps (i + 1)
      (mkChunks (split p) fresh cid (fresh + 1)).2
    simp only [savePages]
    rcases hc with hc | hc
    · have hdid : c.document_id = fresh := mkChunks_document_id _ _ _ _ c hc
      omega
    · have := ih (i + 1) (mkChunks (split p) fresh cid (fresh + 1)).2 c hc
      omega

theorem savePages_pages (split : String → List String) (url : String)
    (cid rid : Nat) :
    ∀ (pages : List String) (i fresh : Nat) (j : Nat) (hj : j < pages.length),
      ∃ d ∈ (savePages split url cid rid pages i fresh).1,
        d.page_number = some (i + j + 1) ∧ d.text = pages.get ⟨j, hj⟩ ∧
        ((savePages split url cid rid pages i fresh).2.1.filter
            (fun c => c.document_id == d.id)).map (fun c => c.text) =
          split (pages.get ⟨j, hj⟩) := by
  intro pages
  induction pages with
  | nil => intro i fresh j hj; simp at hj
  | cons p ps ih =>
    intro i fresh j hj
    have hcnt : (mkChunks (split p) fresh cid (fresh + 1)).2 = fresh + 1 + (split p).length :=
      mkChunks_counter _ _ _ _
    match j with
    | 0 =>
      refine ⟨{ id := fresh, company_id := cid, resource_id := some rid,
                text := p, page_number := some (i + 1), file_path := some url }, ?_, ?_, rfl, ?_⟩
      · simp [savePages]
      · simp
      · simp only [savePages, List.filter_append]
        have h1 : (mkChunks (split p) fresh cid (fresh + 1)).1.filter
            (fun c => c.document_id == fresh) = (mkChunks (split p) fresh cid (fresh + 1)).1 := by
          apply List.filter_eq_self.mpr
          intro c hc
          simp [mkChunks_document_id _ _ _ _ c hc]
        have h2 : (savePages split url cid rid ps (i + 1)
            (mkChunks (split p) fresh cid (fresh + 1)).2).2.1.filter
            (fun c => c.document_id == fresh) = [] := by
          apply List.filter_eq_nil_iff.mpr
          intro c hc
          have := savePages_chunks split url cid rid ps (i + 1) _ c hc
          simp only [beq_iff_eq]
          omega
        rw [h1, h2, List.append_nil]
        exact mkChunks_texts _ _ _ _
    | j' + 1 =>
      have hj' : j' < ps.length := by simpa using Nat.lt_of_succ_lt_succ hj
      obtain ⟨d, hd, hpn, htext, hfilter⟩ :=
        ih (i + 1) (mkChunks (split p) fresh cid (fresh + 1)).2 j' hj'
      refine ⟨d, ?_, ?_, ?_, ?_⟩
      · simp only [savePages, List.mem_cons]; exact Or.inr hd
      · rw [hpn]; congr 1; omega
      · simpa using htext
      · simp only [savePages, List.filter_append]
        have hdlo : (mkChunks (split p) fresh cid (fresh + 1)).2 ≤ d.id :=
          (savePages_docs split url cid rid ps (i + 1) _ d hd).1
        have h1 : (mkChunks (split p) fresh cid (fresh + 1)).1.filter
            (fun c => c.document_id == d.id) = [] := by
          apply List.filter_eq_nil_iff.mpr
          intro c hc
          have := mkChunks_document_id _ _ _ _ c hc
          simp only [beq_iff_eq, this]
          omega
        rw [h1, List.nil_append]
        simpa using hfilter

/-- `find?` by a key commutes with mapping a key-preserving function. -/
theorem find?_key_map {α : Type} (key : α → Nat) (f : α → α)
    (hf : ∀ a, key (f a) = key a) (ρ : Nat) :
    ∀ l : List α, (l.map f).find? (fun a => key a == ρ) =
      (l.find? (fun a => key a == ρ)).map f := by
  intro l
  induction l with
  | nil => rfl
  | cons h t ih =>
    simp only [List.map_cons, List.find?_cons, hf]
    cases hkey : (key h == ρ) with
    | true => simp
    | false => simpa using ih

theorem markIngested_id_pres (rid : Nat) (r : CompanyResource) :
    (if r.id == rid then { r with is_ingested := true } else r).id = r.id := by
  by_cases h : r.id == rid <;> simp [h]

theorem lookupRes_markIngested (db : DB) (rid ρ : Nat) :
    lookupRes (markIngested db rid) ρ =
      (lookupRes db ρ).map
        (fun r => if r.id == rid then { r with is_ingested := true } else r) := by
  unfold lookupRes markIngested
  exact find?_key_map (fun r => r.id) _ (markIngested_id_pres rid) ρ db.resources

theorem lookupRes_markIngested_ne (db : DB) (rid ρ : Nat) (h : ρ ≠ rid) :
    lookupRes (markIngested db rid) ρ = lookupRes db ρ := by
  rw [lookupRes_markIngested]
  cases hfind : lookupRes db ρ with
  | none => rfl
  | some r =>
    have hfind' : db.resources.find? (fun x => x.id == ρ) = some r := hfind
    have hp := List.find?_some hfind'
    have : r.id = ρ := by simpa using hp
    simp [this, h]

theorem lookupRes_markIngested_self (db : DB) (rid : Nat) (r : CompanyResource)
    (h : lookupRes db rid = some r) :
    lookupRes (markIngested db rid) rid = some { r with is_ingested := true } := by
  rw [lookupRes_markIngested, h]
  have h' : db.resources.find? (fun x => x.id == rid) = some r := h
  have hp := List.find?_some h'
  have hr : r.id = rid := by simpa using hp
  simp [hr]

/-- A member of a list whose mapped keys are `Nodup` is found by its key. -/
theorem find?_key_of_mem_nodup {α : Type} (key : α → Nat) (l : List α) (a : α)
    (ha : a ∈ l) (hnd : (l.map key).Nodup) :
    l.find? (fun x => key x == key a) = some a := by
  induction l with
  | nil => simp at ha
  | cons h t ih =>
    simp only [List.map_cons, List.nodup_cons] at hnd
    rcases List.mem_cons.mp ha with rfl | hmem
    · simp [List.find?_cons]
    · have hne : key h ≠ key a := by
        intro he
        exact hnd.1 (he ▸ List.mem_map_of_mem key hmem)
      simp only [List.find?_cons]
      cases hkey : (key h == key a) with
      | true => exact absurd (by simpa using hkey) hne
      | false => exact ih hmem hnd.2

theorem lookupRes_of_mem_nodup (db : DB) (r : CompanyResource)
    (hr : r ∈ db.resources) (hnd : (db.resources.map (fun x => x.id)).Nodup) :
    lookupRes db r.id = some r := by
  have := find?_key_of_mem_nodup (fun x : CompanyResource => x.id) db.resources r hr hnd
  simpa [lookupRes] using this

/-- When the outcome of a resource is a failure, its loop iteration leaves
store and counter untouched. -/
theorem process_one_of_outcome_none (s3get : String → Except String Bytes)
    (loader : Bytes → Except String (List String)) (split : String → List String)
    (r : CompanyResource) (db : DB) (fresh : Nat)
    (h : ingestionOutcome s3get loader r = none) :
    process_one s3get loader split r db fresh = (db, fresh) := by
  unfold ingestionOutcome at h
  unfold process_one
  cases hget : get_s3_file_content s3get r.resource_location with
  | none => rfl
  | some content =>
    rw [hget] at h
    simp only at h ⊢
    by_cases hemp : content.isEmpty
    · simp [hemp]
    · simp only [hemp, if_false, Bool.false_eq_true, if_neg] at h ⊢
      unfold extract_pdf_content_to_document_db
      by_cases hbud : (!(pdfMagic.isPrefixOf content) &&
          (bud1LongSig.isPrefixOf content || bud1Sig.isPrefixOf content)) = true
      · simp [hbud] at h
      · simp only [Bool.not_eq_true] at hbud
        simp only [hbud, Bool.false_eq_true, if_neg] at h ⊢
        cases hld : loader content with
        | error e => simp [hld]
        | ok pages => rw [hld] at h; simp at h

/-- When the outcome of a resource is `some pages`, its loop iteration
appends exactly the documents and chunks of `savePages` and flips the
resource's flag. -/
theorem process_one_of_outcome_some (s3get : String → Except String Bytes)
    (loader : Bytes → Except String (List String)) (split : String → List String)
    (r : CompanyResource) (db : DB) (fresh : Nat) (pages : List String)
    (h : ingestionOutcome s3get loader r = some pages) :
    process_one s3get loader split r db fresh =
      (markIngested
        { db with
            documents := db.documents ++
              (savePages split r.resource_location r.company_id r.id pages 0 fresh).1,
            chunks := db.chunks ++
              (savePages split r.resource_location r.company_id r.id pages 0 fresh).2.1 }
        r.id,
       (savePages split r.resource_location r.company_id r.id pages 0 fresh).2.2) := by
  unfold ingestionOutcome at h
  unfold process_one
  cases hget : get_s3_file_content s3get r.resource_location with
  | none => rw [hget] at h; simp at h
  | some content =>
    rw [hget] at h
    simp only at h ⊢
    by_cases hemp : content.isEmpty
    · simp [hemp] at h
    · simp only [hemp, if_false, Bool.false_eq_true, if_neg] at h ⊢
      unfold extract_pdf_content_to_document_db
      by_cases hbud : (!(pdfMagic.isPrefixOf content) &&
          (bud1LongSig.isPrefixOf content || bud1Sig.isPrefixOf content)) = true
      · simp only [hbud, if_true, if_pos] at h ⊢
        have hpages : pages = [] := by simpa using h.symm
        subst hpages
        simp [savePages]
      · simp only [Bool.not_eq_true] at hbud
        simp only [hbud, Bool.false_eq_true, if_neg] at h ⊢
        cases hld : loader content with
        | error e => rw [hld] at h; simp at h
        | ok pages' =>
          rw [hld] at h
          have : pages' = pages := by simpa using h
          subst this
          simp [hld]

theorem markIngested_documents (db : DB) (rid : Nat) :
    (markIngested db rid).documents = db.documents := rfl

theorem markIngested_chunks (db : DB) (rid : Nat) :
    (markIngested db rid).chunks = db.chunks := rfl

section ProcessListLemmas

variable (s3get : String → Except String Bytes)
variable (loader : Bytes → Except String (List String))
variable (split : String → List String)

theorem processList_counter_le :
    ∀ (rs : List CompanyResource) (db : DB) (fresh : Nat),
      fresh ≤ (processList s3get loader split rs db fresh).2 := by
  intro rs
  induction rs with
  | nil => intro db fresh; simp [processList]
  | cons r rest ih =>
    intro db fresh
    simp only [processList]
    cases h : ingestionOutcome s3get loader r with
    | none =>
      rw [process_one_of_outcome_none s3get loader split r db fresh h]
      exact ih db fresh
    | some pages =>
      rw [process_one_of_outcome_some s3get loader split r db fresh pages h]
      dsimp only
      have h1 := savePages_counter_le split r.resource_location r.company_id r.id pages 0 fresh
      have h2 := ih (markIngested
        { db with
            documents := db.documents ++
              (savePages split r.resource_location r.company_id r.id pages 0 fresh).1,
            chunks := db.chunks ++
              (savePages split r.resource_location r.company_id r.id pages 0 fresh).2.1 }
        r.id)
        (savePages split r.resource_location r.company_id r.id pages 0 fresh).2.2
      omega

theorem processList_docs_shape :
    ∀ (rs : List CompanyResource) (db : DB) (fresh : Nat),
      ∃ nd, (processList s3get loader split rs db fresh).1.documents = db.documents ++ nd ∧
        ∀ d ∈ nd, fresh ≤ d.id ∧ d.id < (processList s3get loader split rs db fresh).2 ∧
          ∃ rr ∈ rs, d.resource_id = some rr.id := by
  intro rs
  induction rs with
  | nil => intro db fresh; exact ⟨[], by simp [processList]⟩
  | cons r rest ih =>
    intro db fresh
    simp only [processList]
    cases h : ingestionOutcome s3get loader r with
    | none =>
      rw [process_one_of_outcome_none s3get loader split r db fresh h]
      obtain ⟨nd, hnd, hprop⟩ := ih db fresh
      exact ⟨nd, hnd, fun d hd =>
        ⟨(hprop d hd).1, (hprop d hd).2.1,
         (hprop d hd).2.2.elim (fun rr hrr => ⟨rr, List.mem_cons_of_mem r hrr.1, hrr.2⟩)⟩⟩
    | some pages =>
      rw [process_one_of_outcome_some s3get loader split r db fresh pages h]
      dsimp only
      set sp := savePages split r.resource_location r.company_id r.id pages 0 fresh with hsp
      set db1 := markIngested
        { db with documents := db.documents ++ sp.1, chunks := db.chunks ++ sp.2.1 } r.id
        with hdb1
      obtain ⟨nd, hnd, hprop⟩ := ih db1 sp.2.2
      have hdocs1 : db1.documents = db.documents ++ sp.1 := rfl
      refine ⟨sp.1 ++ nd, by rw [hnd, hdocs1, List.append_assoc], ?_⟩
      intro d hd
      have hcle := processList_counter_le s3get loader split rest db1 sp.2.2
      have hsple := savePages_counter_le split r.resource_location r.company_id r.id pages 0 fresh
      rw [← hsp] at hsple
      rcases List.mem_append.mp hd with hd | hd
      · have := savePages_docs split r.resource_location r.company_id r.id pages 0 fresh d hd
        rw [← hsp] at this
        exact ⟨this.1, by omega, ⟨r, List.mem_cons_self r rest, this.2.2.1⟩⟩
      · have := hprop d hd
        exact ⟨by omega, this.2.1,
          this.2.2.elim (fun rr hrr => ⟨rr, List.mem_cons_of_mem r hrr.1, hrr.2⟩)⟩

theorem processList_chunks_shape :
    ∀ (rs : List CompanyResource) (db : DB) (fresh : Nat),
      ∃ nc, (processList s3get loader split rs db fresh).1.chunks = db.chunks ++ nc ∧
        ∀ c ∈ nc, fresh ≤ c.document_id ∧
          c.document_id < (processList s3get loader split rs db fresh).2 := by
  intro rs
  induction rs with
  | nil => intro db fresh; exact ⟨[], by simp [processList]⟩
  | cons r rest ih =>
    intro db fresh
    simp only [processList]
    cases h : ingestionOutcome s3get loader r with
    | none =>
      rw [process_one_of_outcome_none s3get loader split r db fresh h]
      exact ih db fresh
    | some pages =>
      rw [process_one_of_outcome_some s3get loader split r db fresh pages h]
      dsimp only
      set sp := savePages split r.resource_location r.company_id r.id pages 0 fresh with hsp
      set db1 := markIngested
        { db with documents := db.documents ++ sp.1, chunks := db.chunks ++ sp.2.1 } r.id
        with hdb1
      obtain ⟨nc, hnc, hprop⟩ := ih db1 sp.2.2
      have hchunks1 : db1.chunks = db.chunks ++ sp.2.1 := rfl
      refine ⟨sp.2.1 ++ nc, by rw [hnc, hchunks1, List.append_assoc], ?_⟩
      intro c hc
      have hcle := processList_counter_le s3get loader split rest db1 sp.2.2
      have hsple := savePages_counter_le split r.resource_location r.company_id r.id pages 0 fresh
      rw [← hsp] at hsple
      rcases List.mem_append.mp hc with hc | hc
      · have := savePages_chunks split r.resource_location r.company_id r.id pages 0 fresh c hc
        rw [← hsp] at this
        exact ⟨this.1, by omega⟩
      · have := hprop c hc
        exact ⟨by omega, this.2⟩

theorem processList_lookupRes :
    ∀ (rs : List CompanyResource) (db : DB) (fresh : Nat) (ρ : Nat),
      (∀ rr ∈ rs, rr.id ≠ ρ) →
      lookupRes (processList s3get loader split rs db fresh).1 ρ = lookupRes db ρ := by
  intro rs
  induction rs with
  | nil => intro db fresh ρ _; rfl
  | cons r rest ih =>
    intro db fresh ρ hne
    simp only [processList]
    cases h : ingestionOutcome s3get loader r with
    | none =>
      rw [process_one_of_outcome_none s3get loader split r db fresh h]
      exact ih db fresh ρ (fun rr hrr => hne rr (List.mem_cons_of_mem r hrr))
    | some pages =>
      rw [process_one_of_outcome_some s3get loader split r db fresh pages h]
      rw [ih _ _ ρ (fun rr hrr => hne rr (List.mem_cons_of_mem r hrr))]
      rw [lookupRes_markIngested_ne _ _ _ (fun he => hne r (List.mem_cons_self r rest) he.symm)]
      rfl

end ProcessListLemmas

section TrackedLemmas

variable (s3get : String → Except String Bytes)
variable (loader : Bytes → Except String (List String))
variable (split : String → List String)

theorem process_one_lookupRes_ne (r : CompanyResource) (db : DB) (fresh ρ : Nat)
    (hρ : ρ ≠ r.id) :
    lookupRes (process_one s3get loader split r db fresh).1 ρ = lookupRes db ρ := by
  cases h : ingestionOutcome s3get loader r with
  | none => rw [process_one_of_outcome_none s3get loader split r db fresh h]
  | some pages =>
    rw [process_one_of_outcome_some s3get loader split r db fresh pages h]
    dsimp only
    rw [lookupRes_markIngested_ne _ _ _ hρ]
    rfl

theorem process_one_docsOfRes_ne (r : CompanyResource) (db : DB) (fresh ρ : Nat)
    (hρ : ρ ≠ r.id) :
    docsOfRes (process_one s3get loader split r db fresh).1 ρ = docsOfRes db ρ := by
  cases h : ingestionOutcome s3get loader r with
  | none => rw [process_one_of_outcome_none s3get loader split r db fresh h]
  | some pages =>
    rw [process_one_of_outcome_some s3get loader split r db fresh pages h]
    dsimp only
    unfold docsOfRes
    rw [markIngested_documents]
    show (db.documents ++ _).filter _ = _
    rw [List.filter_append]
    have : ((savePages split r.resource_location r.company_id r.id pages 0 fresh).1.filter
        (fun d => d.resource_id == some ρ)) = [] := by
      apply List.filter_eq_nil_iff.mpr
      intro d hd
      have hres := (savePages_docs split r.resource_location r.company_id r.id pages 0 fresh d hd).2.2.1
      simp only [hres, beq_iff_eq, Option.some.injEq]
      exact fun he => hρ he.symm
    rw [this, List.append_nil]

theorem process_one_freshOk (r : CompanyResource) (db : DB) (fresh : Nat)
    (hf : DB.freshOk db fresh) :
    DB.freshOk (process_one s3get loader split r db fresh).1
      (process_one s3get loader split r db fresh).2 := by
  cases h : ingestionOutcome s3get loader r with
  | none => rw [process_one_of_outcome_none s3get loader split r db fresh h]; exact hf
  | some pages =>
    rw [process_one_of_outcome_some s3get loader split r db fresh pages h]
    dsimp only
    have hle := savePages_counter_le split r.resource_location r.company_id r.id pages 0 fresh
    constructor
    · intro d hd
      rw [markIngested_documents] at hd
      rcases List.mem_append.mp hd with hd | hd
      · exact lt_of_lt_of_le (hf.1 d hd) hle
      · exact (savePages_docs split r.resource_location r.company_id r.id pages 0 fresh d hd).2.1
    · intro c hc
      rw [markIngested_chunks] at hc
      rcases List.mem_append.mp hc with hc | hc
      · exact lt_of_lt_of_le (hf.2 c hc) hle
      · exact (savePages_chunks split r.resource_location r.company_id r.id pages 0 fresh c hc).2

theorem docsOfRes_processList_pres (rs : List CompanyResource) (db : DB)
    (fresh ρ : Nat) (hne : ∀ rr ∈ rs, rr.id ≠ ρ) :
    docsOfRes (processList s3get loader split rs db fresh).1 ρ = docsOfRes db ρ := by
  obtain ⟨nd, hnd, hp⟩ := processList_docs_shape s3get loader split rs db fresh
  unfold docsOfRes
  rw [hnd, List.filter_append]
  have : nd.filter (fun d => d.resource_id == some ρ) = [] := by
    apply List.filter_eq_nil_iff.mpr
    intro d hd
    obtain ⟨rr, hrr, hres⟩ := (hp d hd).2.2
    simp only [hres, beq_iff_eq, Option.some.injEq]
    exact hne rr hrr
  rw [this, List.append_nil]

theorem pagesPersisted_mono (db1 out : DB) (fresh1 : Nat)
    (r : CompanyResource) (pages : List String)
    (hdocs : ∀ d, d ∈ db1.documents → d ∈ out.documents)
    (hchunks : ∃ nc, out.chunks = db1.chunks ++ nc ∧ ∀ c ∈ nc, fresh1 ≤ c.document_id)
    (hbound : ∀ d ∈ db1.documents, d.id < fresh1)
    (hpp : pagesPersisted split db1 r pages) :
    pagesPersisted split out r pages := by
  intro j hj
  obtain ⟨d, hd, hres, hpn, htxt, hfp, hfilter⟩ := hpp j hj
  obtain ⟨nc, hnc, hge⟩ := hchunks
  refine ⟨d, hdocs d hd, hres, hpn, htxt, hfp, ?_⟩
  rw [hnc, List.filter_append]
  have : nc.filter (fun c => c.document_id == d.id) = [] := by
    apply List.filter_eq_nil_iff.mpr
    intro c hc
    have h1 := hge c hc
    have h2 := hbound d hd
    simp only [beq_iff_eq]
    omega
  rw [this, List.append_nil]
  exact hfilter

theorem processList_tracked_none :
    ∀ (rs : List CompanyResource) (db : DB) (fresh : Nat) (r : CompanyResource),
      r ∈ rs → (rs.map (fun x => x.id)).Nodup → lookupRes db r.id = some r →
      DB.freshOk db fresh → ingestionOutcome s3get loader r = none →
      lookupRes (processList s3get loader split rs db fresh).1 r.id = some r ∧
      docsOfRes (processList s3get loader split rs db fresh).1 r.id = docsOfRes db r.id := by
  intro rs
  induction rs with
  | nil => intro db fresh r hmem; simp at hmem
  | cons r0 rest ih =>
    intro db fresh r hmem hnd hrow hf hout
    simp only [List.map_cons, List.nodup_cons] at hnd
    simp only [processList]
    rcases List.mem_cons.mp hmem with rfl | hmem
    · rw [process_one_of_outcome_none s3get loader split r db fresh hout]
      dsimp only
      have hne : ∀ rr ∈ rest, rr.id ≠ r.id := by
        intro rr hrr he
        exact hnd.1 (he ▸ List.mem_map_of_mem (fun x => x.id) hrr)
      exact ⟨(processList_lookupRes s3get loader split rest db fresh r.id hne).trans hrow,
             docsOfRes_processList_pres s3get loader split rest db fresh r.id hne⟩
    · have hne0 : r0.id ≠ r.id := by
        intro he
        exact hnd.1 (he ▸ List.mem_map_of_mem (fun x => x.id) hmem)
      have hrow1 : lookupRes (process_one s3get loader split r0 db fresh).1 r.id = some r := by
        rw [process_one_lookupRes_ne s3get loader split r0 db fresh r.id (fun he => hne0 he.symm)]
        exact hrow
      have hf1 := process_one_freshOk s3get loader split r0 db fresh hf
      have := ih (process_one s3get loader split r0 db fresh).1
        (process_one s3get loader split r0 db fresh).2 r hmem hnd.2 hrow1 hf1 hout
      refine ⟨this.1, ?_⟩
      rw [this.2]
      exact process_one_docsOfRes_ne s3get loader split r0 db fresh r.id
        (fun he => hne0 he.symm)

theorem processList_tracked_some :
    ∀ (rs : List CompanyResource) (db : DB) (fresh : Nat) (r : CompanyResource)
      (pages : List String),
      r ∈ rs → (rs.map (fun x => x.id)).Nodup → lookupRes db r.id = some r →
      DB.freshOk db fresh → ingestionOutcome s3get loader r = some pages →
      lookupRes (processList s3get loader split rs db fresh).1 r.id =
        some { r with is_ingested := true } ∧
      pagesPersisted split (processList s3get loader split rs db fresh).1 r pages := by
  intro rs
  induction rs with
  | nil => intro db fresh r pages hmem; simp at hmem
  | cons r0 rest ih =>
    intro db fresh r pages hmem hnd hrow hf hout
    simp only [List.map_cons, List.nodup_cons] at hnd
    simp only [processList]
    rcases List.mem_cons.mp hmem with rfl | hmem
    · have hne : ∀ rr ∈ rest, rr.id ≠ r.id := by
        intro rr hrr he
        exact hnd.1 (he ▸ List.mem_map_of_mem (fun x => x.id) hrr)
      have hf1 := process_one_freshOk s3get loader split r db fresh hf
      rw [process_one_of_outcome_some s3get loader split r db fresh pages hout] at hf1 ⊢
      dsimp only at hf1 ⊢
      have hsple := savePages_counter_le split r.resource_location r.company_id r.id pages 0 fresh
      constructor
      · rw [processList_lookupRes s3get loader split rest _ _ r.id hne]
        apply lookupRes_markIngested_self
        exact hrow
      · -- the pages are persisted right after this resource's iteration …
        have hpp1 : pagesPersisted split
            (markIngested
              { db with
                  documents := db.documents ++
                    (savePages split r.resource_location r.company_id r.id pages 0 fresh).1,
                  chunks := db.chunks ++
                    (savePages split r.resource_location r.company_id r.id pages 0 fresh).2.1 }
              r.id) r pages := by
          intro j hj
          obtain ⟨d, hd, hpn, htxt, hfilter⟩ :=
            savePages_pages split r.resource_location r.company_id r.id pages 0 fresh j hj
          have hdprops := savePages_docs split r.resource_location r.company_id r.id pages 0 fresh d hd
          refine ⟨d, ?_, hdprops.2.2.1, ?_, htxt, hdprops.2.2.2.2, ?_⟩
          · rw [markIngested_documents]
            exact List.mem_append_right _ hd
          · rw [hpn]; congr 1; omega
          · rw [markIngested_chunks]
            show ((db.chunks ++ _).filter _).map _ = _
            rw [List.filter_append]
            have hnil : db.chunks.filter (fun c => c.document_id == d.id) = [] := by
              apply List.filter_eq_nil_iff.mpr
              intro c hc
              have h1 := hf.2 c hc
              have h2 := hdprops.1
              simp only [beq_iff_eq]
              omega
            rw [hnil, List.nil_append]
            exact hfilter
        -- … and survive the rest of the batch.
        obtain ⟨nd, hnd2, _⟩ := processList_docs_shape s3get loader split rest
          (markIngested
            { db with
                documents := db.documents ++
                  (savePages split r.resource_location r.company_id r.id pages 0 fresh).1,
                chunks := db.chunks ++
                  (savePages split r.resource_location r.company_id r.id pages 0 fresh).2.1 }
            r.id)
          (savePages split r.resource_location r.company_id r.id pages 0 fresh).2.2
        obtain ⟨nc, hnc2, hncge⟩ := processList_chunks_shape s3get loader split rest
          (markIngested
            { db with
                documents := db.documents ++
                  (savePages split r.resource_location r.company_id r.id pages 0 fresh).1,
                chunks := db.chunks ++
                  (savePages split r.resource_location r.company_id r.id pages 0 fresh).2.1 }
            r.id)
          (savePages split r.resource_location r.company_id r.id pages 0 fresh).2.2
        apply pagesPersisted_mono split _ _
          (savePages split r.resource_location r.company_id r.id pages 0 fresh).2.2 r pages
        · intro d hd
          rw [hnd2]
          exact List.mem_append_left _ hd
        · exact ⟨nc, hnc2, fun c hc => (hncge c hc).1⟩
        · exact hf1.1
        · exact hpp1
    · have hne0 : r0.id ≠ r.id := by
        intro he
        exact hnd.1 (he ▸ List.mem_map_of_mem (fun x => x.id) hmem)
      have hrow1 : lookupRes (process_one s3get loader split r0 db fresh).1 r.id = some r := by
        rw [process_one_lookupRes_ne s3get loader split r0 db fresh r.id (fun he => hne0 he.symm)]
        exact hrow
      have hf1 := process_one_freshOk s3get loader split r0 db fresh hf
      exact ih (process_one s3get loader split r0 db fresh).1
        (process_one s3get loader split r0 db fresh).2 r pages hmem hnd.2 hrow1 hf1 hout

end TrackedLemmas

section BatchEntry

variable (s3get : String → Except String Bytes)
variable (loader : Bytes → Except String (List String))
variable (split : String → List String)

theorem todo_mem (db : DB) (r : CompanyResource) (hr : r ∈ db.resources)
    (hflag : r.is_ingested = false) :
    r ∈ db.resources.filter (fun x => x.is_ingested == false) :=
  List.mem_filter.mpr ⟨hr, by simp [hflag]⟩

theorem todo_nodup (db : DB) (hnd : (db.resources.map (fun x => x.id)).Nodup) :
    ((db.resources.filter (fun x => x.is_ingested == false)).map (fun x => x.id)).Nodup :=
  hnd.sublist ((List.filter_sublist db.resources).map (fun x => x.id))

theorem todo_ne_of_ingested (db : DB) (r : CompanyResource)
    (hnd : (db.resources.map (fun x => x.id)).Nodup)
    (hr : r ∈ db.resources) (hflag : r.is_ingested = true) :
    ∀ rr ∈ db.resources.filter (fun x => x.is_ingested == false), rr.id ≠ r.id := by
  intro rr hrr he
  have hrr' := List.mem_filter.mp hrr
  have : rr = r :=
    List.inj_on_of_nodup_map hnd hrr'.1 hr he
  rw [this] at hrr'
  rw [hflag] at hrr'
  simp at hrr'

end BatchEntry

/-! ## Claim C1 -/

/-- **C1** — For every resource row (under unique primary keys and a fresh id
counter), running `process_resources_from_db` flips `is_ingested` from
`false` to `true` at most once and only after full persistence: a row already
`true` is not selected and is left exactly as it was (so the transition
happens at most once across runs); a `false` row whose fetch, validation or
PDF load fails is left unchanged — still `false`, eligible for retry; and a
`false` row ends up `true` exactly with every page of its loaded PDF
persisted as a document carrying its splitter chunks. -/
theorem C1_ingested_flag_lifecycle (s3get : String → Except String Bytes)
    (loader : Bytes → Except String (List String)) (split : String → List String)
    (db : DB) (fresh : Nat) (r : CompanyResource)
    (hnd : (db.resources.map (fun x => x.id)).Nodup)
    (hf : DB.freshOk db fresh)
    (hr : r ∈ db.resources) :
    (r.is_ingested = true →
      lookupRes (process_resources_from_db s3get loader split db fresh).1 r.id = some r) ∧
    (r.is_ingested = false → ingestionOutcome s3get loader r = none →
      lookupRes (process_resources_from_db s3get loader split db fresh).1 r.id = some r) ∧
    (r.is_ingested = false → ∀ pages, ingestionOutcome s3get loader r = some pages →
      lookupRes (process_resources_from_db s3get loader split db fresh).1 r.id =
        some { r with is_ingested := true } ∧
      pagesPersisted split (process_resources_from_db s3get loader split db fresh).1
        r pages) := by
  have hrow := lookupRes_of_mem_nodup db r hr hnd
  refine ⟨?_, ?_, ?_⟩
  · intro hflag
    unfold process_resources_from_db
    rw [processList_lookupRes s3get loader split _ db fresh r.id
      (todo_ne_of_ingested db r hnd hr hflag)]
    exact hrow
  · intro hflag hout
    unfold process_resources_from_db
    exact (processList_tracked_none s3get loader split _ db fresh r
      (todo_mem db r hr hflag) (todo_nodup db hnd) hrow hf hout).1
  · intro hflag pages hout
    unfold process_resources_from_db
    exact processList_tracked_some s3get loader split _ db fresh r pages
      (todo_mem db r hr hflag) (todo_nodup db hnd) hrow hf hout

/-- Witness for C1 at a one-resource store whose fetch and load succeed. -/
theorem C1_ingested_flag_lifecycle_witness :
    lookupRes (process_resources_from_db c1S3 c1Loader c1Split c1DB 10).1 1 =
      some { id := 1, company_id := 2, resource_location := "s3://u",
             is_ingested := true } ∧
    pagesPersisted c1Split (process_resources_from_db c1S3 c1Loader c1Split c1DB 10).1
      c1Res ["page one"] :=
  (C1_ingested_flag_lifecycle c1S3 c1Loader c1Split c1DB 10 c1Res
    (by decide) (by unfold DB.freshOk; decide) (by decide)).2.2 rfl ["page one"] rfl

/-! ## Claim C2 -/

/-- **C2 counterexample** — fetched content `b"A"` does not begin with
`%PDF-` (it is `b"A%PDF-"`, a junk byte before the header), yet the PDF
loader parses such streams (pypdf accepts a header sitting past offset 0),
and then the pipeline creates one document for the resource and marks it
ingested: the claimed "zero Documents and `ingested` remaining false" fails
on the code. -/
theorem C2_nonpdf_counterexample :
    pdfMagic.isPrefixOf (0x41 :: pdfMagic) = false ∧
    (docsOfRes (process_resources_from_db c2S3 c2Loader c2Split c2DB 10).1 1).length = 1 ∧
    (lookupRes (process_resources_from_db c2S3 c2Loader c2Split c2DB 10).1 1).map
      (fun x => x.is_ingested) = some true := by
  decide

/-- **C2 (amended)** — Zero documents and an untouched `false` flag are
guaranteed exactly when the resource's outcome is a failure: the S3 fetch
raises, the content carries a recognised non-PDF signature (`Bud1`
variants), the content is empty, or the PDF loader raises on it.  Content
that does not begin with `%PDF-` but escapes those checks is attempted
anyway, so for it the guarantee holds only when the loader then fails. -/
theorem C2_nonpdf_failure_no_records (s3get : String → Except String Bytes)
    (loader : Bytes → Except String (List String)) (split : String → List String)
    (db : DB) (fresh : Nat) (r : CompanyResource)
    (hnd : (db.resources.map (fun x => x.id)).Nodup)
    (hf : DB.freshOk db fresh)
    (hr : r ∈ db.resources) (hflag : r.is_ingested = false)
    (hout : ingestionOutcome s3get loader r = none) :
    lookupRes (process_resources_from_db s3get loader split db fresh).1 r.id = some r ∧
    docsOfRes (process_resources_from_db s3get loader split db fresh).1 r.id =
      docsOfRes db r.id := by
  have hrow := lookupRes_of_mem_nodup db r hr hnd
  unfold process_resources_from_db
  exact processList_tracked_none s3get loader split _ db fresh r
    (todo_mem db r hr hflag) (todo_nodup db hnd) hrow hf hout

/-- Witness for the amended C2: non-`%PDF-` content on which the loader
raises leaves no document and the flag `false`. -/
theorem C2_nonpdf_failure_no_records_witness :
    lookupRes (process_resources_from_db c2wS3 c2wLoader c2Split c2wDB 10).1 1 =
      some c2wRes ∧
    docsOfRes (process_resources_from_db c2wS3 c2wLoader c2Split c2wDB 10).1 1 =
      docsOfRes c2wDB 1 :=
  C2_nonpdf_failure_no_records c2wS3 c2wLoader c2Split c2wDB 10 c2wRes
    (by decide) (by unfold DB.freshOk; decide) (by decide) rfl rfl

/-! ## Claim C3 -/

/-- **C3** — A resource already marked `ingested` is skipped by a second
batch run: its row is untouched, and both the set of documents linked to it
and the set of chunks belonging to those documents are exactly what they
were before the run — no duplicates are created. -/
theorem C3_second_run_noop (s3get : String → Except String Bytes)
    (loader : Bytes → Except String (List String)) (split : String → List String)
    (db : DB) (fresh : Nat) (r : CompanyResource)
    (hnd : (db.resources.map (fun x => x.id)).Nodup)
    (hf : DB.freshOk db fresh)
    (hr : r ∈ db.resources) (hflag : r.is_ingested = true) :
    lookupRes (process_resources_from_db s3get loader split db fresh).1 r.id = some r ∧
    docsOfRes (process_resources_from_db s3get loader split db fresh).1 r.id =
      docsOfRes db r.id ∧
    resourceChunks (process_resources_from_db s3get loader split db fresh).1 r.id =
      resourceChunks db r.id := by
  have hrow := lookupRes_of_mem_nodup db r hr hnd
  have hne := todo_ne_of_ingested db r hnd hr hflag
  unfold process_resources_from_db
  have hdocs := docsOfRes_processList_pres s3get loader split
    (db.resources.filter (fun x => x.is_ingested == false)) db fresh r.id hne
  refine ⟨(processList_lookupRes s3get loader split _ db fresh r.id hne).trans hrow,
    hdocs, ?_⟩
  obtain ⟨nc, hnc, hge⟩ := processList_chunks_shape s3get loader split
    (db.resources.filter (fun x => x.is_ingested == false)) db fresh
  unfold resourceChunks
  rw [hdocs, hnc, List.filter_append]
  have hnil : nc.filter
      (fun c => (docsOfRes db r.id).any (fun d => d.id == c.document_id)) = [] := by
    apply List.filter_eq_nil_iff.mpr
    intro c hc
    simp only [List.any_eq_true, beq_iff_eq]
    rintro ⟨d, hd, hdc⟩
    have hdm := (List.mem_filter.mp hd).1
    have h1 := hf.1 d hdm
    have h2 := (hge c hc).1
    omega
  rw [hnil, List.append_nil]

/-- Witness for C3: an already-ingested resource in a store where the other
resource is processed; its documents and chunks are untouched. -/
theorem C3_second_run_noop_witness :
    lookupRes (process_resources_from_db c1S3 c1Loader c1Split c3DB 10).1 1 =
      some c3Res ∧
    docsOfRes (process_resources_from_db c1S3 c1Loader c1Split c3DB 10).1 1 =
      docsOfRes c3DB 1 ∧
    resourceChunks (process_resources_from_db c1S3 c1Loader c1Split c3DB 10).1 1 =
      resourceChunks c3DB 1 :=
  C3_second_run_noop c1S3 c1Loader c1Split c3DB 10 c3Res
    (by decide) (by unfold DB.freshOk; decide) (by decide) rfl

/-! ## Claim C9 -/

/-- **C9** — Failures are isolated per resource in the batch: after
`process_resources_from_db`, the flag of each initially-unprocessed resource
is `true` exactly when that resource's own fetch-and-extract outcome
succeeded, independent of every other resource in the batch — so one
resource's failure never prevents the others from being processed, and only
failed resources are left un-ingested. -/
theorem C9_batch_failure_isolated (s3get : String → Except String Bytes)
    (loader : Bytes → Except String (List String)) (split : String → List String)
    (db : DB) (fresh : Nat) (r : CompanyResource)
    (hnd : (db.resources.map (fun x => x.id)).Nodup)
    (hf : DB.freshOk db fresh)
    (hr : r ∈ db.resources) (hflag : r.is_ingested = false) :
    (lookupRes (process_resources_from_db s3get loader split db fresh).1 r.id).map
        (fun x => x.is_ingested) =
      some (ingestionOutcome s3get loader r).isSome := by
  have hrow := lookupRes_of_mem_nodup db r hr hnd
  unfold process_resources_from_db
  cases hout : ingestionOutcome s3get loader r with
  | none =>
    rw [(processList_tracked_none s3get loader split _ db fresh r
      (todo_mem db r hr hflag) (todo_nodup db hnd) hrow hf hout).1]
    simp [hflag]
  | some pages =>
    rw [(processList_tracked_some s3get loader split _ db fresh r pages
      (todo_mem db r hr hflag) (todo_nodup db hnd) hrow hf hout).1]
    simp

/-- Witness for C9: in a batch where the first resource's fetch raises, the
first stays un-ingested while the second is still processed and marked. -/
theorem C9_batch_failure_isolated_witness :
    (lookupRes (process_resources_from_db c9S3 c1Loader c1Split c9DB 10).1 1).map
        (fun x => x.is_ingested) = some false ∧
    (lookupRes (process_resources_from_db c9S3 c1Loader c1Split c9DB 10).1 2).map
        (fun x => x.is_ingested) = some true :=
  ⟨C9_batch_failure_isolated c9S3 c1Loader c1Split c9DB 10
      { id := 1, company_id := 2, resource_location := "s3://bad", is_ingested := false }
      (by decide) (by unfold DB.freshOk; decide) (by decide) rfl,
   C9_batch_failure_isolated c9S3 c1Loader c1Split c9DB 10
      { id := 2, company_id := 2, resource_location := "s3://good", is_ingested := false }
      (by decide) (by unfold DB.freshOk; decide) (by decide) rfl⟩

/-! ## Claim C10 — backfill lemmas -/

section BackfillLemmas

variable (split : String → List String)

theorem patchFields_id (d : Document) : (patchFields d).id = d.id := rfl

theorem patchFields_text (d : Document) : (patchFields d).text = d.text := rfl

theorem patchFields_idem (d : Document) : patchFields (patchFields d) = patchFields d := by
  cases hpn : d.page_number <;> cases hfp : d.file_path <;>
    simp [patchFields, hpn, hfp]

theorem patchDoc_chunks (db : DB) (did : Nat) : (patchDoc db did).chunks = db.chunks := rfl

theorem patchDoc_rowFixed_self (db : DB) (did : Nat) : rowFixed (patchDoc db did) did := by
  intro x hx hxid
  obtain ⟨y, hy, hgy⟩ := List.mem_map.mp hx
  by_cases hyid : (y.id == did) = true
  · rw [if_pos hyid] at hgy
    rw [← hgy, patchFields_idem]
  · rw [if_neg hyid] at hgy
    subst hgy
    exact absurd (by simp [hxid]) hyid

theorem patchDoc_rowFixed_pres (db : DB) (did ρ : Nat) (h : rowFixed db ρ) :
    rowFixed (patchDoc db did) ρ := by
  intro x hx hxid
  obtain ⟨y, hy, hgy⟩ := List.mem_map.mp hx
  by_cases hyid : (y.id == did) = true
  · rw [if_pos hyid] at hgy
    rw [← hgy, patchFields_idem]
  · rw [if_neg hyid] at hgy
    subst hgy
    exact h y hy hxid

theorem backfillGo_rowFixed_pres :
    ∀ (docList : List Document) (db : DB) (fresh ρ : Nat), rowFixed db ρ →
      rowFixed (backfillGo split docList db fresh).1 ρ := by
  intro docList
  induction docList with
  | nil => intro db fresh ρ h; exact h
  | cons d rest ih =>
    intro db fresh ρ h
    simp only [backfillGo]
    by_cases hc : (chunkCount db d.id == 0) = true
    · rw [if_pos hc]
      exact ih _ _ ρ (patchDoc_rowFixed_pres db d.id ρ h)
    · rw [if_neg hc]
      exact ih _ _ ρ h

theorem backfillGo_chunks_shape :
    ∀ (docList : List Document) (db : DB) (fresh : Nat),
      ∃ nc, (backfillGo split docList db fresh).1.chunks = db.chunks ++ nc ∧
        ∀ c ∈ nc, ∃ dd ∈ docList, c.document_id = dd.id ∧ chunkCount db dd.id = 0 := by
  intro docList
  induction docList with
  | nil => intro db fresh; exact ⟨[], by simp [backfillGo]⟩
  | cons d rest ih =>
    intro db fresh
    simp only [backfillGo]
    by_cases hc : (chunkCount db d.id == 0) = true
    · rw [if_pos hc]
      have hc0 : chunkCount db d.id = 0 := by simpa using hc
      obtain ⟨nc, hnc, hp⟩ := ih
        { patchDoc db d.id with
            chunks := (patchDoc db d.id).chunks ++
              (mkChunks (split d.text) d.id d.company_id fresh).1 }
        (mkChunks (split d.text) d.id d.company_id fresh).2
      refine ⟨(mkChunks (split d.text) d.id d.company_id fresh).1 ++ nc, ?_, ?_⟩
      · rw [hnc]
        show (db.chunks ++ _) ++ nc = _
        rw [List.append_assoc]
      · intro c hcm
        rcases List.mem_append.mp hcm with hcm | hcm
        · exact ⟨d, List.mem_cons_self d rest,
            mkChunks_document_id _ _ _ _ c hcm, hc0⟩
        · obtain ⟨dd, hdd, hdid, hcount⟩ := hp c hcm
          refine ⟨dd, List.mem_cons_of_mem d hdd, hdid, ?_⟩
          have hsplit : chunksOfDoc
              { patchDoc db d.id with
                  chunks := (patchDoc db d.id).chunks ++
                    (mkChunks (split d.text) d.id d.company_id fresh).1 }
              dd.id = chunksOfDoc db dd.id ++
                ((mkChunks (split d.text) d.id d.company_id fresh).1.filter
                  (fun c => c.document_id == dd.id)) := by
            unfold chunksOfDoc
            show ((db.chunks ++ _).filter _) = _
            rw [List.filter_append]
          unfold chunkCount at hcount ⊢
          rw [hsplit, List.length_append] at hcount
          omega
    · rw [if_neg hc]
      obtain ⟨nc, hnc, hp⟩ := ih db fresh
      exact ⟨nc, hnc, fun c hcm =>
        (hp c hcm).elim (fun dd hdd => ⟨dd, List.mem_cons_of_mem d hdd.1, hdd.2⟩)⟩

theorem backfillGo_count_le (docList : List Document) (db : DB) (fresh did : Nat) :
    chunkCount db did ≤ chunkCount (backfillGo split docList db fresh).1 did := by
  obtain ⟨nc, hnc, _⟩ := backfillGo_chunks_shape split docList db fresh
  unfold chunkCount chunksOfDoc
  rw [hnc, List.filter_append, List.length_append]
  omega

theorem backfillGo_settles :
    ∀ (docList : List Document) (db : DB) (fresh : Nat),
      ∀ d ∈ docList,
        chunkCount (backfillGo split docList db fresh).1 d.id ≠ 0 ∨
        (split d.text = [] ∧ rowFixed (backfillGo split docList db fresh).1 d.id) := by
  intro docList
  induction docList with
  | nil => intro db fresh d hd; simp at hd
  | cons d0 rest ih =>
    intro db fresh d hd
    simp only [backfillGo]
    by_cases hc : (chunkCount db d0.id == 0) = true
    · rw [if_pos hc]
      rcases List.mem_cons.mp hd with rfl | hd
      · -- the head document: patched and given its splitter chunks
        by_cases hsplitnil : split d.text = []
        · refine Or.inr ⟨hsplitnil, ?_⟩
          apply backfillGo_rowFixed_pres
          intro x hx hxid
          exact patchDoc_rowFixed_self db d.id x hx hxid
        · refine Or.inl ?_
          have hpos : (split d.text).length ≠ 0 :=
            fun h => hsplitnil (List.eq_nil_of_length_eq_zero h)
          have hmono := backfillGo_count_le split rest
            { patchDoc db d.id with
                chunks := (patchDoc db d.id).chunks ++
                  (mkChunks (split d.text) d.id d.company_id fresh).1 }
            (mkChunks (split d.text) d.id d.company_id fresh).2 d.id
          have hlen : chunkCount
              { patchDoc db d.id with
                  chunks := (patchDoc db d.id).chunks ++
                    (mkChunks (split d.text) d.id d.company_id fresh).1 }
              d.id ≠ 0 := by
            unfold chunkCount chunksOfDoc
            show ((db.chunks ++ _).filter _).length ≠ 0
            rw [List.filter_append, List.length_append]
            have hall : ((mkChunks (split d.text) d.id d.company_id fresh).1.filter
                (fun c => c.document_id == d.id)) =
                (mkChunks (split d.text) d.id d.company_id fresh).1 := by
              apply List.filter_eq_self.mpr
              intro c hcm
              simp [mkChunks_document_id _ _ _ _ c hcm]
            rw [hall]
            have : (mkChunks (split d.text) d.id d.company_id fresh).1.length =
                (split d.text).length := by
              have := mkChunks_texts (split d.text) d.id d.company_id fresh
              calc (mkChunks (split d.text) d.id d.company_id fresh).1.length
                  = ((mkChunks (split d.text) d.id d.company_id fresh).1.map
                      (fun c => c.text)).length := (List.length_map _ _).symm
                _ = (split d.text).length := by rw [this]
            omega
          exact fun hzero => hlen (Nat.le_zero.mp (le_trans hmono (le_of_eq hzero)))
      · exact ih _ _ d hd
    · rw [if_neg hc]
      rcases List.mem_cons.mp hd with rfl | hd
      · refine Or.inl ?_
        have hmono := backfillGo_count_le split rest db fresh d.id
        have : chunkCount db d.id ≠ 0 := by simpa using hc
        omega
      · exact ih db fresh d hd

theorem forall2_patch_step (l : List Document) (did : Nat) :
    List.Forall₂ (fun x y => y = x ∨ y = patchFields x) l
      (l.map (fun d => if d.id == did then patchFields d else d)) := by
  induction l with
  | nil => exact List.Forall₂.nil
  | cons h t ih =>
    refine List.Forall₂.cons ?_ ih
    by_cases hh : (h.id == did) = true <;> simp [hh]

theorem forall2_patch_refl (l : List Document) :
    List.Forall₂ (fun x y => y = x ∨ y = patchFields x) l l := by
  induction l with
  | nil => exact List.Forall₂.nil
  | cons h t ih => exact List.Forall₂.cons (Or.inl rfl) ih

theorem forall2_patch_trans {l1 l2 l3 : List Document}
    (h12 : List.Forall₂ (fun x y => y = x ∨ y = patchFields x) l1 l2)
    (h23 : List.Forall₂ (fun x y => y = x ∨ y = patchFields x) l2 l3) :
    List.Forall₂ (fun x y => y = x ∨ y = patchFields x) l1 l3 := by
  induction h12 generalizing l3 with
  | nil => cases h23; exact List.Forall₂.nil
  | cons hxy hrest ih =>
    cases h23 with
    | cons hyz hrest' =>
      refine List.Forall₂.cons ?_ (ih hrest')
      rcases hxy with rfl | hxy
      · exact hyz
      · rcases hyz with rfl | hyz
        · exact Or.inr hxy
        · rw [hyz, hxy, patchFields_idem]
          exact Or.inr rfl

theorem forall2_patch_mem_right {R : Document → Document → Prop}
    {l1 l2 : List Document} (h : List.Forall₂ R l1 l2) {y : Document} (hy : y ∈ l2) :
    ∃ x ∈ l1, R x y := by
  induction h with
  | nil => simp at hy
  | cons hxy hrest ih =>
    rcases List.mem_cons.mp hy with rfl | hy
    · exact ⟨_, List.mem_cons_self _ _, hxy⟩
    · obtain ⟨x, hx, hR⟩ := ih hy
      exact ⟨x, List.mem_cons_of_mem _ hx, hR⟩

theorem backfillGo_docs_provenance :
    ∀ (docList : List Document) (db : DB) (fresh : Nat),
      List.Forall₂ (fun x y => y = x ∨ y = patchFields x) db.documents
        (backfillGo split docList db fresh).1.documents := by
  intro docList
  induction docList with
  | nil => intro db fresh; exact forall2_patch_refl db.documents
  | cons d rest ih =>
    intro db fresh
    simp only [backfillGo]
    by_cases hc : (chunkCount db d.id == 0) = true
    · rw [if_pos hc]
      refine forall2_patch_trans ?_ (ih _ _)
      exact forall2_patch_step db.documents d.id
    · rw [if_neg hc]
      exact ih db fresh

theorem map_id_of_forall {α : Type} (l : List α) (f : α → α) (h : ∀ a ∈ l, f a = a) :
    l.map f = l := by
  induction l with
  | nil => rfl
  | cons x t ih =>
    simp only [List.map_cons]
    rw [h x (List.mem_cons_self x t), ih (fun a ha => h a (List.mem_cons_of_mem x ha))]

theorem backfillGo_fixpoint :
    ∀ (docList : List Document) (db : DB) (fresh : Nat),
      (∀ x ∈ db.documents,
        chunkCount db x.id ≠ 0 ∨ (split x.text = [] ∧ patchFields x = x)) →
      (∀ d ∈ docList, d ∈ db.documents) →
      backfillGo split docList db fresh = (db, fresh) := by
  intro docList
  induction docList with
  | nil => intro db fresh _ _; rfl
  | cons d rest ih =>
    intro db fresh hsettled hsub
    simp only [backfillGo]
    by_cases hc : (chunkCount db d.id == 0) = true
    · rw [if_pos hc]
      have hc0 : chunkCount db d.id = 0 := by simpa using hc
      have hds := hsettled d (hsub d (List.mem_cons_self d rest))
      rcases hds with hds | ⟨hsplit, _⟩
      · exact absurd hc0 hds
      · have hpatch : patchDoc db d.id = db := by
          unfold patchDoc
          rw [map_id_of_forall db.documents _ ?_]
          · intro x hx
            by_cases hxid : (x.id == d.id) = true
            · rw [if_pos hxid]
              have hxd : x.id = d.id := by simpa using hxid
              rcases hsettled x hx with hxc | ⟨_, hfix⟩
              · rw [hxd] at hxc
                exact absurd hc0 hxc
              · exact hfix
            · rw [if_neg hxid]
        rw [hpatch, hsplit]
        simp only [mkChunks, List.append_nil]
        exact ih db fresh hsettled (fun x hx => hsub x (List.mem_cons_of_mem d hx))
    · rw [if_neg hc]
      exact ih db fresh hsettled (fun x hx => hsub x (List.mem_cons_of_mem d hx))

end BackfillLemmas

/-- **C10** — The chunk backfill creates chunks only for documents that
currently have none: the chunk set of any document id that already has at
least one chunk is untouched by a run, and running the backfill twice in a
row is a no-op the second time — the second run returns the first run's
store unchanged (and does not even consume ids). -/
theorem C10_backfill_only_chunkless_and_idempotent (split : String → List String)
    (db : DB) (fresh fresh2 : Nat) :
    (∀ did, chunkCount db did ≠ 0 →
      chunksOfDoc (process_documents_to_chunks split db fresh).1 did =
        chunksOfDoc db did) ∧
    process_documents_to_chunks split
        (process_documents_to_chunks split db fresh).1 fresh2 =
      ((process_documents_to_chunks split db fresh).1, fresh2) := by
  constructor
  · intro did hcount
    obtain ⟨nc, hnc, hp⟩ := backfillGo_chunks_shape split db.documents db fresh
    unfold process_documents_to_chunks
    unfold chunksOfDoc
    rw [hnc, List.filter_append]
    have hnil : nc.filter (fun c => c.document_id == did) = [] := by
      apply List.filter_eq_nil_iff.mpr
      intro c hcm
      obtain ⟨dd, hdd, hdid, hcnt⟩ := hp c hcm
      simp only [beq_iff_eq, hdid]
      intro he
      rw [he] at hcnt
      exact hcount hcnt
    rw [hnil, List.append_nil]
  · have hsettle : ∀ x ∈ (backfillGo split db.documents db fresh).1.documents,
        chunkCount (backfillGo split db.documents db fresh).1 x.id ≠ 0 ∨
        (split x.text = [] ∧ patchFields x = x) := by
      intro x hx
      obtain ⟨d, hd, hrel⟩ := forall2_patch_mem_right
        (backfillGo_docs_provenance split db.documents db fresh) hx
      rcases backfillGo_settles split db.documents db fresh d hd with hcnt | ⟨hnil, hfix⟩
      · refine Or.inl ?_
        rcases hrel with rfl | rfl
        · exact hcnt
        · rw [patchFields_id]
          exact hcnt
      · refine Or.inr ⟨?_, ?_⟩
        · rcases hrel with rfl | rfl
          · exact hnil
          · rw [patchFields_text]
            exact hnil
        · rcases hrel with rfl | rfl
          · exact hfix x hx rfl
          · exact hfix (patchFields d) hx (patchFields_id d)
    show process_documents_to_chunks split (backfillGo split db.documents db fresh).1
        fresh2 = ((backfillGo split db.documents db fresh).1, fresh2)
    unfold process_documents_to_chunks
    exact backfillGo_fixpoint split _ _ fresh2 hsettle (fun d hd => hd)

/-- Witness for C10 at a store with one already-chunked document and one
chunkless document. -/
theorem C10_backfill_only_chunkless_and_idempotent_witness :
    chunksOfDoc (process_documents_to_chunks c10Split c10DB 10).1 1 =
      chunksOfDoc c10DB 1 ∧
    process_documents_to_chunks c10Split
        (process_documents_to_chunks c10Split c10DB 10).1 11 =
      ((process_documents_to_chunks c10Split c10DB 10).1, 11) :=
  ⟨(C10_backfill_only_chunkless_and_idempotent c10Split c10DB 10 11).1 1 (by decide),
   (C10_backfill_only_chunkless_and_idempotent c10Split c10DB 10 11).2⟩

/-! ## Claims C4 and C5 — vector indexer -/

theorem recordOf_some (db : DB) (c : Chunk) (rec : PineconeRecord)
    (h : recordOf db c = some rec) :
    rec.chunk_id = c.id ∧
    rec.page_content =
      "Context: " ++ pyStrOfContext c.context ++ "\n\nContent: " ++ c.text := by
  unfold recordOf at h
  cases hfind : db.documents.find? (fun d => d.id == c.document_id) with
  | none => rw [hfind] at h; simp at h
  | some document =>
    rw [hfind] at h
    simp only [Option.some.injEq] at h
    rw [← h]
    exact ⟨rfl, rfl⟩

/-- **C4 counterexample** — for a chunk with no `context`, the payload
written to the vector store is `"Context: None\n\nContent: t"` (Python's
f-string renders `None` and the code adds `Context:`/`Content:` labels),
which differs from the claimed composite `context + blank line + text` with
empty context — that claim would give `"\n\nt"`. -/
theorem C4_payload_counterexample :
    (ingest_chunks_to_pinecone c4DB "zz").map (fun r => r.page_content) =
      ["Context: None\n\nContent: t"] ∧
    specPayload c4Chunk = "\n\nt" ∧
    ("Context: None\n\nContent: t" : String) ≠ specPayload c4Chunk := by
  refine ⟨rfl, rfl, ?_⟩
  decide

/-- **C4 (amended)** — For every chunk that survives the exclusion filter
and whose parent document is found, some upsert batch contains exactly one
record for it, whose payload is the literal string
`"Context: " ++ str(context) ++ "\n\nContent: " ++ text`, where an absent
(`NULL`) context is rendered as `"None"`; the metadata carries the parent's
ids with `file_path` defaulting to `""` and `page_number` to `0`. -/
theorem C4_upsert_payload_format (db : DB) (pat : String) (c : Chunk) (d : Document)
    (hkeep : c ∈ chunksSelected db pat)
    (hfind : db.documents.find? (fun dd => dd.id == c.document_id) = some d) :
    ∃ b ∈ pinecone_upsert_batches db pat, ∃ rec ∈ b,
      rec.chunk_id = c.id ∧
      rec.page_content =
        "Context: " ++ pyStrOfContext c.context ++ "\n\nContent: " ++ c.text ∧
      rec.document_id = d.id ∧ rec.company_id = d.company_id ∧
      rec.file_path = d.file_path.getD "" ∧
      rec.page_number = d.page_number.getD 0 := by
  have hrec : recordOf db c = some
      { page_content := "Context: " ++ pyStrOfContext c.context ++
          "\n\nContent: " ++ c.text,
        chunk_id := c.id, document_id := d.id, company_id := d.company_id,
        file_path := d.file_path.getD "", page_number := d.page_number.getD 0 } := by
    unfold recordOf
    rw [hfind]
  have hmem := List.mem_filterMap.mpr ⟨c, hkeep, hrec⟩
  obtain ⟨b, hb, hrb⟩ := (mem_toBatches_iff 99 (ingest_chunks_to_pinecone db pat) _).mpr hmem
  exact ⟨b, hb, _, hrb, rfl, rfl, rfl, rfl, rfl, rfl⟩

/-- Witness for the amended C4 at a one-chunk store with absent context. -/
theorem C4_upsert_payload_format_witness :
    ∃ b ∈ pinecone_upsert_batches c4wDB "zz", ∃ rec ∈ b,
      rec.chunk_id = c4wChunk.id ∧
      rec.page_content = "Context: " ++ pyStrOfContext c4wChunk.context ++
        "\n\nContent: " ++ c4wChunk.text ∧
      rec.document_id = c4wDoc.id ∧ rec.company_id = c4wDoc.company_id ∧
      rec.file_path = c4wDoc.file_path.getD "" ∧
      rec.page_number = c4wDoc.page_number.getD 0 :=
  C4_upsert_payload_format c4wDB "zz" c4wChunk c4wDoc (by decide) (by decide)

/-- **C5** — A chunk whose parent document's `file_path` matches the
exclusion filter (SQL `LIKE '%pat%'`, i.e. substring containment on a
non-NULL path) never appears in any batch handed to the vector-store upsert
(chunk primary keys assumed unique). -/
theorem C5_excluded_chunk_never_upserted (db : DB) (pat : String)
    (c : Chunk) (d : Document)
    (hc : c ∈ db.chunks) (hd : d ∈ db.documents) (hid : d.id = c.document_id)
    (hmatch : likeMatch pat d.file_path = true)
    (hnd : (db.chunks.map (fun x => x.id)).Nodup) :
    ∀ b ∈ pinecone_upsert_batches db pat, ∀ rec ∈ b, rec.chunk_id ≠ c.id := by
  intro b hb rec hrec heq
  have hrecmem : rec ∈ ingest_chunks_to_pinecone db pat :=
    (mem_toBatches_iff 99 (ingest_chunks_to_pinecone db pat) rec).mp ⟨b, hb, hrec⟩
  obtain ⟨c', hc', hf⟩ := List.mem_filterMap.mp hrecmem
  have hcid : c'.id = c.id := by
    rw [← heq, (recordOf_some db c' rec hf).1]
  -- the excluded-ids list is non-empty, so the chunk filter is active
  have hdid : d.id ∈ excludedDocIds db pat :=
    List.mem_map_of_mem (fun x => x.id)
      (List.mem_filter.mpr ⟨hd, hmatch⟩)
  have hnonempty : (excludedDocIds db pat).isEmpty = false := by
    cases hemp : excludedDocIds db pat with
    | nil => rw [hemp] at hdid; simp at hdid
    | cons a t => rfl
  simp only [chunksSelected, hnonempty, Bool.false_eq_true, if_false] at hc'
  have hc'' := List.mem_filter.mp hc'
  have hceq : c' = c := List.inj_on_of_nodup_map hnd hc''.1 hc hcid
  rw [hceq, ← hid] at hc''
  have hcontra := hc''.2
  simp only [Bool.not_eq_true'] at hcontra
  simp at hcontra
  exact hcontra hdid

/-- Witness for C5: with filter `"a/b"`, chunk id 7 (the chunk under
`/a/b.pdf`) occurs in none of the upsert batches. -/
theorem C5_excluded_chunk_never_upserted_witness :
    ((pinecone_upsert_batches c5DB "a/b").flatten.map
      (fun rec => rec.chunk_id)).contains 7 = false := by
  have happ := C5_excluded_chunk_never_upserted c5DB "a/b" c5Chunk c5Doc
    (by decide) (by decide) rfl (by decide) (by decide)
  by_contra hcont
  simp only [Bool.not_eq_false] at hcont
  have hmem : (7 : Nat) ∈ (pinecone_upsert_batches c5DB "a/b").flatten.map
      (fun rec => rec.chunk_id) := by
    simpa using hcont
  obtain ⟨rec, hrec, hid⟩ := List.mem_map.mp hmem
  obtain ⟨b, hb, hrb⟩ := List.mem_flatten.mp hrec
  exact happ b hb rec hrb hid

/-! ## Claim C6 — retriever -/

/-- **C6 counterexample** — with `top_k = 0` (a non-positive value) the
retriever does not reject the call as `InvalidArgument`: there is no
validation in `query_vector_store`, so the call goes through to the store
and its result is returned. -/
theorem C6_topk_counterexample :
    query_vector_store (fun _ => some "idx") (fun _ _ _ => .ok []) "q" 0 =
      .ok ([] : List RetrievedDoc) ∧
    (Except.ok ([] : List RetrievedDoc) ≠
      (Except.error QueryError.invalidArgument :
        Except QueryError (List RetrievedDoc))) :=
  ⟨rfl, fun h => Except.noConfusion h⟩

/-- **C6 (amended)** — `query_vector_store` applies no validation to
`top_k`: for every value, non-positive ones included, it forwards the query
and `top_k` unchanged to the store's `similarity_search` on the resolved
index and returns that result; "returns up to `top_k` passages" holds
exactly when the store capability itself honours that bound. -/
theorem C6_topk_passthrough (env : String → Option String)
    (search : Option String → String → Int → Except QueryError (List RetrievedDoc))
    (q : String) (k : Int)
    (hstore : ∀ idx q' k' l, search idx q' k' = .ok l → l.length ≤ k'.toNat) :
    query_vector_store env search q k = search (resolveIndexName env) q k ∧
    ∀ l, query_vector_store env search q k = .ok l → l.length ≤ k.toNat :=
  ⟨rfl, fun l h => hstore (resolveIndexName env) q k l h⟩

/-- Witness for the amended C6 at `top_k = 0` with a store honouring the
bound. -/
theorem C6_topk_passthrough_witness :
    query_vector_store c6Env c6Search "q" 0 = c6Search (resolveIndexName c6Env) "q" 0 ∧
    ∀ l, query_vector_store c6Env c6Search "q" 0 = .ok l → l.length ≤ (0 : Int).toNat :=
  C6_topk_passthrough c6Env c6Search "q" 0
    (fun idx q' k' l h => by cases h; simp)

/-! ## Claim C7 — contextualiser commit granularity -/

theorem findChunk_updCtx (l : List Chunk) (cid' : Nat) (ctx : String) (cid : Nat) :
    findChunk (updCtx cid' ctx l) cid =
      (findChunk l cid).map
        (fun c => if c.id == cid' then { c with context := some ctx } else c) := by
  unfold findChunk updCtx
  exact find?_key_map (fun c : Chunk => c.id)
    (fun c => if c.id == cid' then { c with context := some ctx } else c)
    (fun c => by by_cases h : (c.id == cid') = true <;> simp [h]) cid l

theorem lookupChunk_set_self (db : DB) (cid : Nat) (ctx : String) (c0 : Chunk)
    (h : lookupChunk db cid = some c0) :
    lookupChunk (setChunkContext db cid ctx) cid = some { c0 with context := some ctx } := by
  unfold lookupChunk at h
  unfold lookupChunk setChunkContext
  rw [findChunk_updCtx, h]
  have h' : db.chunks.find? (fun x => x.id == cid) = some c0 := h
  have hp := List.find?_some h'
  have hc0 : c0.id = cid := by simpa using hp
  simp [hc0]

theorem lookupChunk_set_ne (db : DB) (cid : Nat) (ctx : String) (ρ : Nat)
    (h : ρ ≠ cid) :
    lookupChunk (setChunkContext db cid ctx) ρ = lookupChunk db ρ := by
  unfold lookupChunk setChunkContext
  rw [findChunk_updCtx]
  cases hfind : findChunk db.chunks ρ with
  | none => rfl
  | some c0 =>
    have h' : db.chunks.find? (fun x => x.id == ρ) = some c0 := hfind
    have hp := List.find?_some h'
    have hc0 : c0.id = ρ := by simpa using hp
    simp [hc0, h]

theorem lookupChunk_set_isSome (db : DB) (cid : Nat) (ctx : String) (ρ : Nat) :
    (lookupChunk (setChunkContext db cid ctx) ρ).isSome = (lookupChunk db ρ).isSome := by
  unfold lookupChunk setChunkContext
  rw [findChunk_updCtx]
  cases hfind : findChunk db.chunks ρ <;> rfl

theorem paGo_lookup_ne (llm : String → String → Except Unit String) (docText : String) :
    ∀ (chunks : List Chunk) (db : DB) (acc : List (Nat × String)) (ρ : Nat),
      (∀ c ∈ chunks, c.id ≠ ρ) →
      lookupChunk (paGo llm docText chunks db acc).1 ρ = lookupChunk db ρ := by
  intro chunks
  induction chunks with
  | nil => intro db acc ρ _; rfl
  | cons c rest ih =>
    intro db acc ρ hne
    simp only [paGo]
    cases hllm : llm c.text docText with
    | error e => rfl
    | ok ctx =>
      rw [ih _ _ ρ (fun c' hc' => hne c' (List.mem_cons_of_mem c hc'))]
      exact lookupChunk_set_ne db c.id ctx ρ
        (fun he => hne c (List.mem_cons_self c rest) he.symm)

theorem paGo_persists (llm : String → String → Except Unit String) (docText : String) :
    ∀ (chunks : List Chunk) (db : DB) (acc : List (Nat × String)) (i : Nat)
      (hi : i < chunks.length) (ctx : String),
      (chunks.map (fun c => c.id)).Nodup →
      (∀ c ∈ chunks, (lookupChunk db c.id).isSome = true) →
      (∀ j (hj : j < i), ∃ s, llm (chunks.get ⟨j, by omega⟩).text docText = .ok s) →
      llm (chunks.get ⟨i, hi⟩).text docText = .ok ctx →
      (lookupChunk (paGo llm docText chunks db acc).1 (chunks.get ⟨i, hi⟩).id).map
        (fun c => c.context) = some (some ctx) := by
  intro chunks
  induction chunks with
  | nil => intro db acc i hi; simp at hi
  | cons c rest ih =>
    intro db acc i hi ctx hnd hrows hsucc hci
    simp only [List.map_cons, List.nodup_cons] at hnd
    match i with
    | 0 =>
      simp only [List.get] at hci
      simp only [paGo, hci, List.get]
      have hsome : (lookupChunk db c.id).isSome = true :=
        hrows c (List.mem_cons_self c rest)
      obtain ⟨c0, hc0⟩ := Option.isSome_iff_exists.mp hsome
      rw [paGo_lookup_ne llm docText rest _ _ c.id
        (fun c' hc' he =>
          hnd.1 (he ▸ List.mem_map_of_mem (fun x => x.id) hc'))]
      rw [lookupChunk_set_self db c.id ctx c0 hc0]
      rfl
    | j + 1 =>
      obtain ⟨s, hs⟩ := hsucc 0 (Nat.succ_pos j)
      simp only [List.get] at hs
      simp only [paGo, hs]
      have hj : j < rest.length := by simpa using Nat.lt_of_succ_lt_succ hi
      have := ih (setChunkContext db c.id s) (acc ++ [(c.id, s)]) j hj ctx hnd.2
        (fun c' hc' => by
          rw [lookupChunk_set_isSome]
          exact hrows c' (List.mem_cons_of_mem c hc'))
        (fun j' hj' => hsucc (j' + 1) (Nat.succ_lt_succ hj'))
        hci
      exact this

/-- **C7 counterexample** — with a document of two chunks (`"a"`, then
`"b"`) and an LLM that succeeds on `"a"` and raises on `"b"`, the file-path
batch entry point (which runs `update_chunk_contexts_in_db` per document)
stops after successfully processing one chunk, yet persists zero context
updates: the method buffers all assignments and commits only once at the
end, so the claimed "first k updates are durably persisted" fails.  The
other entry point, `process_all_chunks_for_document`, does persist the
first chunk's context on the same input. -/
theorem C7_per_chunk_commit_counterexample :
    (update_chunk_contexts_in_db c7Llm c7DB 1).2 = .error () ∧
    (lookupChunk (update_chunk_contexts_in_db c7Llm c7DB 1).1 10).map
      (fun c => c.context) = some none ∧
    (lookupChunk (process_all_chunks_for_document c7Llm c7DB 1).1 10).map
      (fun c => c.context) = some (some "ctxA") :=
  ⟨rfl, rfl, rfl⟩

/-- **C7 (amended)** — The two batch entry points commit at different
granularities.  `process_all_chunks_for_document` commits after every chunk:
if the LLM succeeds on the first chunks of the document's chunk list up to
position `i`, chunk `i`'s new context is durably in the returned store even
when a later chunk fails.  `update_chunk_contexts_in_db` (used by the
file-path batch entry point) commits once per document: whenever it ends in
the error state, the store is returned completely unchanged — partial
progress within a document is lost, and only whole-document progress
survives. -/
theorem C7_commit_granularity :
    (∀ (llm : String → String → Except Unit String) (db : DB) (did : Nat)
       (doc : Document) (i : Nat) (ctx : String)
       (_hdoc : lookupDoc db did = some doc)
       (_hnd : (db.chunks.map (fun x => x.id)).Nodup)
       (hi : i < (chunksOfDoc db did).length),
       (∀ j (hj : j < i),
         ∃ s, llm ((chunksOfDoc db did).get ⟨j, by omega⟩).text doc.text = .ok s) →
       llm ((chunksOfDoc db did).get ⟨i, hi⟩).text doc.text = .ok ctx →
       (lookupChunk (process_all_chunks_for_document llm db did).1
           ((chunksOfDoc db did).get ⟨i, hi⟩).id).map (fun c => c.context) =
         some (some ctx)) ∧
    (∀ (llm : String → String → Except Unit String) (db : DB) (did : Nat),
       (update_chunk_contexts_in_db llm db did).2 = .error () →
       (update_chunk_contexts_in_db llm db did).1 = db) := by
  constructor
  · intro llm db did doc i ctx hdoc hnd hi hsucc hci
    unfold process_all_chunks_for_document
    rw [hdoc]
    apply paGo_persists llm doc.text (chunksOfDoc db did) db [] i hi ctx
    · exact hnd.sublist ((List.filter_sublist db.chunks).map (fun x => x.id))
    · intro c hc
      have hcm : c ∈ db.chunks := (List.mem_filter.mp hc).1
      unfold lookupChunk findChunk
      rw [List.find?_isSome]
      exact ⟨c, hcm, by simp⟩
    · exact hsucc
    · exact hci
  · intro llm db did herr
    cases hdoc : lookupDoc db did with
    | none =>
      have hcomp : update_chunk_contexts_in_db llm db did = (db, .ok 0) := by
        unfold update_chunk_contexts_in_db
        rw [hdoc]
      rw [hcomp]
    | some doc =>
      cases hgo : uGo llm doc.text (chunksOfDoc db did) [] with
      | error e =>
        have hcomp : update_chunk_contexts_in_db llm db did = (db, .error ()) := by
          unfold update_chunk_contexts_in_db
          rw [hdoc]
          dsimp only
          rw [hgo]
        rw [hcomp]
      | ok updates =>
        have hcomp : update_chunk_contexts_in_db llm db did =
            (applyContextUpdates db updates, .ok updates.length) := by
          unfold update_chunk_contexts_in_db
          rw [hdoc]
          dsimp only
          rw [hgo]
        rw [hcomp] at herr
        simp at herr

/-- Witness for the amended C7 at the two-chunk document and the
succeed-then-fail LLM. -/
theorem C7_commit_granularity_witness :
    (lookupChunk (process_all_chunks_for_document c7Llm c7DB 1).1
      ((chunksOfDoc c7DB 1).get ⟨0, by decide⟩).id).map (fun c => c.context) =
      some (some "ctxA") ∧
    (update_chunk_contexts_in_db c7Llm c7DB 1).1 = c7DB :=
  ⟨(C7_commit_granularity).1 c7Llm c7DB 1 c7Doc 0 "ctxA" rfl (by decide) (by decide)
      (fun j hj => absurd hj (by omega)) rfl,
   (C7_commit_granularity).2 c7Llm c7DB 1 rfl⟩

/-! ## Claim C8 — response assembler -/

/-- **C8 counterexample** — when a retrieved passage's metadata has no
`page_number`, the citation built by `generate_response` carries `None`
(`dict.get` with no default), not `0`: the claimed "page_number defaulting
to 0 when absent" does not hold in the assembler. -/
theorem C8_page_number_default_counterexample :
    (citationsOf (generate_response c8Env c8SearchNoPage c8Chat "sys"
        [{ role := "user", content := "What is the revenue?" }])).map
      (fun c => c.page_number) = [none] ∧
    ((none : Option Nat) ≠ some 0) :=
  ⟨rfl, fun h => Option.noConfusion h⟩

/-- **C8 (amended)** — When the history has a latest user message and
retrieval for it returns `N` passages, `generate_response` returns the chat
answer plus exactly `N` citations, the `i`-th being the five metadata fields
of the `i`-th passage copied verbatim — each of chunk_id, document_id,
company_id, file_path and page_number is present as a key but an absent
value stays `None` (no defaulting; `page_number = 0` arises only because the
indexer stored `0`).  When the history has no user message, retrieval is
skipped entirely and the result is the answer over history alone with an
empty citation list. -/
theorem C8_citations_per_passage :
    (∀ (env : String → Option String)
       (search : Option String → String → Int → Except QueryError (List RetrievedDoc))
       (chat : List LMessage → String) (sys : String)
       (messages : List ChatMsg) (q : String) (results : List RetrievedDoc),
       latestUserMessage messages = some q →
       query_vector_store env search q 3 = .ok results →
       citationsOf (generate_response env search chat sys messages) =
         results.map citationOf) ∧
    (∀ (env : String → Option String)
       (search : Option String → String → Int → Except QueryError (List RetrievedDoc))
       (chat : List LMessage → String) (sys : String) (messages : List ChatMsg),
       latestUserMessage messages = none →
       generate_response env search chat sys messages =
         .ok (chat ([LMessage.system sys] ++ convertMessages messages), [])) := by
  constructor
  · intro env search chat sys messages q results hq hr
    unfold generate_response
    rw [hq]
    dsimp only
    rw [hr]
    dsimp only
    by_cases hres : results.isEmpty
    · rw [if_pos hres]
      have : results = [] := by simpa using hres
      rw [this]
      rfl
    · rw [if_neg hres]
      rfl
  · intro env search chat sys messages hq
    unfold generate_response
    rw [hq]

/-- Witness for the amended C8: two retrieved passages yield exactly their
two citations; a history with no user message yields an empty citation
list without consulting the store. -/
theorem C8_citations_per_passage_witness :
    citationsOf (generate_response c8Env c8Search2 c8Chat "sys"
        [{ role := "user", content := "What is the revenue?" }]) =
      [c8PassageNoPage, c8Passage2].map citationOf ∧
    generate_response c8Env c8Search2 c8Chat "sys"
        [{ role := "assistant", content := "hello" }] =
      .ok (c8Chat ([LMessage.system "sys"] ++
        convertMessages [{ role := "assistant", content := "hello" }]), []) :=
  ⟨(C8_citations_per_passage).1 c8Env c8Search2 c8Chat "sys"
      [{ role := "user", content := "What is the revenue?" }]
      "What is the revenue?" [c8PassageNoPage, c8Passage2] rfl rfl,
   (C8_citations_per_passage).2 c8Env c8Search2 c8Chat "sys"
      [{ role := "assistant", content := "hello" }] rfl⟩

end Mayday
